import Mathlib

/-!
Verification development for the calendar-analog matching core of AutoTS
(`autots/tools/seasonal.py`): the calendar feature encoder (`date_part`,
`create_datepart_components`, `fourier_df`), the distance-metric blocks and the
two matching engines (`seasonal_window_match`, `seasonal_independent_match`).

Conventions of the shallow embedding:
* pandas/NumPy float matrices are modelled as row-major `List (List ℚ)`; the
  masked path of the independent matcher, which injects IEEE `inf`, is modelled
  over an extended value type `EV` (finite rational, +inf, -inf, NaN) with the
  IEEE arithmetic rules of the operations the code performs.
* `np.argsort` / `np.argpartition` return values are modelled relationally:
  NumPy guarantees a permutation of `0..n-1` along which the scores are
  non-decreasing (`sortedIdx`), respectively whose first `k` positions carry
  scores no larger than the remaining ones (`frontKSmallest`).  Theorems
  quantify over every index list satisfying the relevant guarantee.
* timestamps are records carrying the calendar attributes pandas exposes on a
  `DatetimeIndex` element; the code reads these attributes, it never computes
  them itself.
-/

/- Batteries marks the `Rat` arithmetic operations `@[irreducible]`, which
blocks `decide`-based evaluation of concrete rational computations in the
elaborator (the kernel unfolds them regardless).  Restore the default
reducibility for this file so that concrete witnesses evaluate. -/
unseal Rat.add Rat.mul Rat.inv Rat.sub Rat.ofScientific

namespace AutoTSSeasonal

/-- decidable equality of `Except` results, needed to evaluate concrete
engine outcomes. -/
instance {ε α : Type} [DecidableEq ε] [DecidableEq α] :
    DecidableEq (Except ε α) := fun x y =>
  match x, y with
  | .ok a, .ok b =>
    if h : a = b then isTrue (by rw [h]) else isFalse (by simp [h])
  | .error a, .error b =>
    if h : a = b then isTrue (by rw [h]) else isFalse (by simp [h])
  | .ok _, .error _ => isFalse (by simp)
  | .error _, .ok _ => isFalse (by simp)

/-! ## Small list helpers -/

/-- entry `(i, j)` of a row-major rational matrix (reads out of range give `0`;
all uses are guarded by bounds hypotheses). -/
def cellQ (a : List (List ℚ)) (i j : ℕ) : ℚ := (a.getD i []).getD j 0

/-- number of feature columns of a row-major matrix (all rows are assumed
rectangular, as produced by the encoder). -/
def colCount (a : List (List ℚ)) : ℕ := (a.headD []).length

/-- `np.mean` of a 1-D array: sum divided by length (in ℚ, `x / 0 = 0`; every
use is guarded so that the list is non-empty). -/
def meanQ (l : List ℚ) : ℚ := l.sum / l.length

/-- `np.max` of a non-empty 1-D array. -/
def maxQ : List ℚ → ℚ
  | [] => 0
  | x :: xs => xs.foldl max x

/-! ## Distance metric reductions over ℚ (window engine block, source lines
557-583).  Each reduction consumes the two slices that the NumPy broadcast
aligns on the reduced axis (`axis=2`): for the window matcher these are
`temp[c, f, :]` (the candidate window's column `f`) and `last_window.T[f, :]`
(the reference window's column `f`), both of length `window_size`. -/

/-- the `mqae` reduction (source lines 570-579): with more than one value on
the reduced axis, keep the `int(0.85 * F)` smallest absolute errors (at least
one) and average them.  `np.partition(ae, qi)[..., :qi]` keeps the `qi`
smallest values as a multiset and the subsequent mean is order-invariant, so
the embedding sorts; `int(F * 0.85)` is the floor `17 * F / 20` in exact
arithmetic (float rounding of `F * 0.85` agrees with the exact floor for all
feasible `F`). -/
def mqaeQ (ae : List ℚ) : ℚ :=
  if ae.length ≤ 1 then meanQ ae
  else meanQ ((ae.insertionSort (· ≤ ·)).take (max (17 * ae.length / 20) 1))

/-- one cell of the score tensor before the candidate mean: the metric
dispatch of `seasonal_window_match` (source lines 557-583) applied to the two
aligned slices.  `minkowski` is hard-coded to `p = 2`.  The final
`** (1 / p)` / `np.sqrt` of the `minkowski` / `euclidean` branches is the real
square root; `Rat.sqrt` stands in for it on finite values (no claim depends on
the finite value of those two metrics, and the stand-in preserves
non-negativity and zero).  The final branch of the source raises for an
unrecognized metric before any score is produced; the engine-level wrapper
`windowScores` carries that guard, so the `0` default here is unreachable
through it. -/
def metricCellQ (metric : String) (a b : List ℚ) : ℚ :=
  if metric = "mae" then meanQ (List.zipWith (fun x y => |x - y|) a b)
  else if metric = "canberra" then
    meanQ (List.zipWith
      (fun x y => |x - y| / (if |x| + |y| = 0 then 1 else |x| + |y|)) a b)
  else if metric = "minkowski" then
    Rat.sqrt (List.zipWith (fun x y => |x - y| ^ 2) a b).sum
  else if metric = "euclidean" then
    Rat.sqrt (List.zipWith (fun x y => (x - y) ^ 2) a b).sum
  else if metric = "chebyshev" then maxQ (List.zipWith (fun x y => |x - y|) a b)
  else if metric = "mqae" then mqaeQ (List.zipWith (fun x y => |x - y|) a b)
  else if metric = "mse" then meanQ (List.zipWith (fun x y => (x - y) ^ 2) a b)
  else 0

/-- the metric names `seasonal_window_match` / `seasonal_independent_match`
accept; any other name raises `ValueError`. -/
def metricNames : List String :=
  ["mae", "canberra", "minkowski", "euclidean", "chebyshev", "mqae", "mse"]

/-! ## seasonal_window_match (source lines 536-602)

The engine first encodes `DTindex` into the feature matrix
`array = date_part(DTindex, method=datepart_method).to_numpy()`, whose rows
align 1:1 with `DTindex` (`len(DTindex) = array.length`); the matching step is
embedded as a function of that matrix.  `sliding_window_view` lives in
`autots/tools/window_functions.py`, which is not under `src/`; modelled from
the spec (§4.2: `count = rows - window_size + 1` overlapping windows) together
with the NumPy convention its caller relies on for broadcasting against
`last_window.T`: the window axis is appended last, so
`temp[c, f, w] = base[c + w][f]`. -/

/-- exclusion zone at the end of history (source lines 548-552). -/
def nTail (k ws fl : ℕ) : ℕ := if 5 < k then min ws fl else fl

/-- `array[:-n_tail, :]`, the rows candidate windows are drawn from. -/
def windowBase (array : List (List ℚ)) (nt : ℕ) : List (List ℚ) :=
  array.take (array.length - nt)

/-- `array[-window_size:, :]`, the reference window. -/
def lastWindow (array : List (List ℚ)) (ws : ℕ) : List (List ℚ) :=
  array.drop (array.length - ws)

/-- number of candidate windows, `rows(base) - window_size + 1` (valid under
the caller obligation `window_size ≤ rows(base)`, under which
`sliding_window_view` does not raise). -/
def windowCountQ (array : List (List ℚ)) (k ws fl : ℕ) : ℕ :=
  (windowBase array (nTail k ws fl)).length - ws + 1

/-- `scores[c][f]` of `seasonal_window_match`: the metric reduction of
candidate window `c`'s column `f` against the reference window's column `f`
along the window axis. -/
def windowCellScore (metric : String) (array : List (List ℚ))
    (k ws fl c f : ℕ) : ℚ :=
  metricCellQ metric
    ((List.range ws).map fun w => cellQ (windowBase array (nTail k ws fl)) (c + w) f)
    ((List.range ws).map fun w => cellQ (lastWindow array ws) w f)

/-- `scores.mean(axis=1)[c]`: the per-candidate scalar the top-k selection
ranks. -/
def windowCandScore (metric : String) (array : List (List ℚ))
    (k ws fl c : ℕ) : ℚ :=
  meanQ ((List.range (colCount array)).map fun f =>
    windowCellScore metric array k ws fl c f)

/-- the per-candidate score vector `scores.mean(axis=1)`. -/
def windowCandScoresVec (metric : String) (array : List (List ℚ))
    (k ws fl : ℕ) : List ℚ :=
  (List.range (windowCountQ array k ws fl)).map
    (windowCandScore metric array k ws fl)

/-- per-candidate scores behind the engine's unknown-metric guard (the source
raises `ValueError` before computing anything for a name outside
`metricNames`). -/
def windowScores (metric : String) (array : List (List ℚ))
    (k ws fl : ℕ) : Except String (List ℚ) :=
  if metric ∈ metricNames then .ok (windowCandScoresVec metric array k ws fl)
  else .error ("distance_metric: " ++ metric ++ " not recognized")

/-- the offset matrix before the sentinel step (source lines 591-598):
`test[s][j] = s + min_idx[j] + window_size` by broadcasting
`np.arange(forecast_length)[..., None] + min_idx + window_size`. -/
def windowOffsetsRaw (minIdx : List ℕ) (ws fl : ℕ) : List (List ℤ) :=
  (List.range fl).map fun (s : ℕ) =>
    minIdx.map fun (c : ℕ) => (s : ℤ) + (c : ℤ) + (ws : ℤ)

/-- the returned offset matrix (source lines 599-602): when `k > min_k = 5`,
offsets at or past the end of history are replaced with the sentinel `-1`
(`np.where(test >= len(DTindex), -1, test)`); otherwise the raw offsets are
returned unchanged. -/
def windowOffsets (minIdx : List ℕ) (ws fl k n : ℕ) : List (List ℤ) :=
  if 5 < k then
    (windowOffsetsRaw minIdx ws fl).map
      (List.map fun v => if (n : ℤ) ≤ v then -1 else v)
  else windowOffsetsRaw minIdx ws fl

/-! ## Relational model of the NumPy top-k selectors -/

/-- a valid output of `np.argsort` on a 1-D array `s`: a permutation of
`0..n-1` (expressed as: right length, no duplicates, in range) along which the
scores are non-decreasing.  NumPy's default kind does not promise more (in
particular no tie order). -/
def sortedIdx (s : List ℚ) (p : List ℕ) : Prop :=
  p.length = s.length ∧ p.Nodup ∧ (∀ i ∈ p, i < s.length) ∧
    (p.map fun i => s.getD i 0).Pairwise (· ≤ ·)

instance (s : List ℚ) (p : List ℕ) : Decidable (sortedIdx s p) := by
  unfold sortedIdx; infer_instance

/-- a 20-row single-feature history used to instantiate the sentinel claim. -/
def c5Array : List (List ℚ) := List.replicate 20 [0]

/-! ## Claim C2: offset formula and the concrete matching scenario

The history is 20 daily timestamps; the claim's scenario fixes a synthetic
feature matrix in which the reference window (rows 17-19) is feature-identical
to rows 0-2 and every other candidate window differs.  `c2Array` realizes it
with one feature column. -/

def c2Array : List (List ℚ) :=
  [[0], [1], [2], [9], [9], [9], [9], [9], [9], [9],
   [9], [9], [9], [9], [9], [9], [9], [0], [1], [2]]

def c2Perm : List ℕ := [0, 1, 2, 15, 3, 4, 5, 6, 7, 8, 9, 10, 11, 12, 13, 14]

/-! ## IEEE extended values

`seasonal_independent_match` optionally overwrites whole history rows with
`np.inf` (`array[nan_array] = np.inf`), after which the metric arithmetic runs
over IEEE floats containing infinities; `inf / inf` produces NaN.  `EV` models
the value domain: a finite rational, `+inf`, `-inf`, or NaN, with the IEEE
rules of exactly the operations the metric block performs. -/

inductive EV where
  | nan : EV
  | pinf : EV
  | ninf : EV
  | num : ℚ → EV
deriving DecidableEq, Repr

namespace EV

/-- IEEE negation. -/
def neg : EV → EV
  | nan => nan
  | pinf => ninf
  | ninf => pinf
  | num x => num (-x)

/-- IEEE addition: NaN propagates, `inf + (-inf) = NaN`. -/
def add : EV → EV → EV
  | nan, _ => nan
  | _, nan => nan
  | pinf, ninf => nan
  | ninf, pinf => nan
  | pinf, _ => pinf
  | _, pinf => pinf
  | ninf, _ => ninf
  | _, ninf => ninf
  | num x, num y => num (x + y)

/-- IEEE subtraction. -/
def sub (a b : EV) : EV := add a (neg b)

/-- IEEE absolute value. -/
def abs : EV → EV
  | nan => nan
  | pinf => pinf
  | ninf => pinf
  | num x => num |x|

/-- IEEE multiplication: NaN propagates, `inf * 0 = NaN`, signs multiply. -/
def mul : EV → EV → EV
  | nan, _ => nan
  | _, nan => nan
  | pinf, pinf => pinf
  | pinf, ninf => ninf
  | ninf, pinf => ninf
  | ninf, ninf => pinf
  | pinf, num y => if y = 0 then nan else if 0 < y then pinf else ninf
  | num x, pinf => if x = 0 then nan else if 0 < x then pinf else ninf
  | ninf, num y => if y = 0 then nan else if 0 < y then ninf else pinf
  | num x, ninf => if x = 0 then nan else if 0 < x then ninf else pinf
  | num x, num y => num (x * y)

/-- squaring, the `** 2` of the `minkowski`/`euclidean`/`mse` branches. -/
def sq (e : EV) : EV := mul e e

/-- IEEE division: NaN propagates, `inf / inf = NaN`, `x / inf = 0`,
`x / 0 = ±inf` (`0 / 0 = NaN`); finite nonzero divisors divide exactly.
(NumPy emits these as warnings, not exceptions.) -/
def div : EV → EV → EV
  | nan, _ => nan
  | _, nan => nan
  | pinf, pinf => nan
  | pinf, ninf => nan
  | ninf, pinf => nan
  | ninf, ninf => nan
  | pinf, num y => if 0 ≤ y then pinf else ninf
  | ninf, num y => if 0 ≤ y then ninf else pinf
  | num _, pinf => num 0
  | num _, ninf => num 0
  | num x, num y =>
    if y = 0 then (if x = 0 then nan else if 0 < x then pinf else ninf)
    else num (x / y)

/-- the float `** 0.5` (equally `np.sqrt`): NaN propagates, `+inf` maps to
`+inf`, a negative base (including `-inf`) gives NaN.  On a finite nonnegative
value the float result is the real square root, which in general has no exact
rational representative; `Rat.sqrt` stands in for it — no claim depends on the
finite value of a root, only on its finiteness, which the stand-in
preserves. -/
def sqrt : EV → EV
  | nan => nan
  | pinf => pinf
  | ninf => nan
  | num x => if x < 0 then nan else num (Rat.sqrt x)

/-- pairwise maximum as `np.max` reduces it: NaN propagates. -/
def max2 : EV → EV → EV
  | nan, _ => nan
  | _, nan => nan
  | pinf, _ => pinf
  | _, pinf => pinf
  | ninf, b => b
  | a, ninf => a
  | num x, num y => num (max x y)

/-- the comparison underlying NumPy's sort order: `-inf < finite < +inf`, and
NaN sorts after everything (NumPy sorts NaN to the end). -/
def leB : EV → EV → Bool
  | ninf, _ => true
  | _, nan => true
  | num x, num y => decide (x ≤ y)
  | num _, pinf => true
  | pinf, pinf => true
  | pinf, num _ => false
  | pinf, ninf => false
  | num _, ninf => false
  | nan, pinf => false
  | nan, num _ => false
  | nan, ninf => false

/-- the sort order as a relation. -/
def le (a b : EV) : Prop := leB a b = true

instance : DecidableRel le := fun a b => by unfold le; infer_instance

/-- `np.sum` / the summation inside `np.mean`. -/
def sumL (l : List EV) : EV := l.foldr add (num 0)

/-- `np.mean` along the reduced axis: sum over count (an empty axis gives
`0 / 0 = NaN`, as NumPy warns-and-returns NaN). -/
def meanL (l : List EV) : EV := div (sumL l) (num l.length)

/-- `np.max` along a non-empty reduced axis. -/
def maxL : List EV → EV
  | [] => nan
  | x :: xs => xs.foldl max2 x

/-- the `mqae` reduction over extended values (same trimming as `mqaeQ`;
`np.partition` keeps the `qi` smallest under the NaN-last comparison). -/
def mqaeL (ae : List EV) : EV :=
  if ae.length ≤ 1 then meanL ae
  else meanL ((ae.insertionSort le).take (max (17 * ae.length / 20) 1))

end EV

/-! ## seasonal_independent_match (source lines 605-662)

`a = array[:, None]` against `b = future_array` broadcasts to shape
`(n_hist, n_future, F)` and the metric block reduces `axis=2` (the feature
axis), so `scores[i][j]` is the metric reduction of history row `i` against
future row `j`.  Selection then runs per future column over the history
axis. -/

/-- one cell `scores[i][j]`: the metric dispatch of
`seasonal_independent_match` (source lines 624-650) applied to a history row
and a future row.  The unknown-metric `ValueError` is carried by
`seasonalIndependentScores`; `EV.sqrt` is the `** (1 / p)` / `np.sqrt` stand-in
(see `metricCellQ`): it is exact on NaN and infinities, and maps a finite
nonnegative value to a finite stand-in (`Rat.sqrt`), a finite negative sum to
NaN as floats do. -/
def indepCellScore (metric : String) (a b : List EV) : EV :=
  if metric = "mae" then
    EV.meanL (List.zipWith (fun x y => EV.abs (EV.sub x y)) a b)
  else if metric = "canberra" then
    EV.meanL (List.zipWith (fun x y =>
      EV.div (EV.abs (EV.sub x y))
        (if EV.add (EV.abs x) (EV.abs y) = EV.num 0 then EV.num 1
         else EV.add (EV.abs x) (EV.abs y))) a b)
  else if metric = "minkowski" then
    EV.sqrt (EV.sumL (List.zipWith (fun x y => EV.sq (EV.abs (EV.sub x y))) a b))
  else if metric = "euclidean" then
    EV.sqrt (EV.sumL (List.zipWith (fun x y => EV.sq (EV.sub x y)) a b))
  else if metric = "chebyshev" then
    EV.maxL (List.zipWith (fun x y => EV.abs (EV.sub x y)) a b)
  else if metric = "mqae" then
    EV.mqaeL (List.zipWith (fun x y => EV.abs (EV.sub x y)) a b)
  else if metric = "mse" then
    EV.meanL (List.zipWith (fun x y => EV.sq (EV.sub x y)) a b)
  else EV.nan

/-- `array[nan_array] = np.inf`: boolean row-mask assignment on the history
feature frame — every column of a selected row becomes `+inf`. -/
def applyMask (hist : List (List EV)) (mask : List Bool) : List (List EV) :=
  List.zipWith (fun row b => if b then row.map (fun _ => EV.pinf) else row)
    hist mask

/-- the full score matrix of `seasonal_independent_match` behind its
unknown-metric guard. -/
def seasonalIndependentScores (metric : String)
    (hist fut : List (List EV)) : Except String (List (List EV)) :=
  if metric ∈ metricNames then
    .ok (hist.map fun ar => fut.map fun br => indepCellScore metric ar br)
  else .error ("distance_metric: " ++ metric ++ " not recognized")

/-- column `j` of the score matrix: the scores of every history row against
future row `j`, the axis along which the per-column top-k selection runs. -/
def indepScoresCol (metric : String) (hist fut : List (List EV))
    (j : ℕ) : List EV :=
  hist.map fun ar => indepCellScore metric ar (fut.getD j [])

/-- the guarantee shared by `np.argsort[:k]` and `np.argpartition(·, k-1)[:k]`
on a 1-D extended-value array: a permutation of `0..n-1` whose first `k`
positions carry scores no larger (in the NaN-last sort order) than every
later position. -/
def frontKSmallest (s : List EV) (k : ℕ) (p : List ℕ) : Prop :=
  p.length = s.length ∧ p.Nodup ∧ (∀ i ∈ p, i < s.length) ∧
    ∀ i < k, ∀ j < p.length, k ≤ j →
      EV.le (s.getD (p.getD i 0) EV.nan) (s.getD (p.getD j 0) EV.nan)

instance (s : List EV) (k : ℕ) (p : List ℕ) :
    Decidable (frontKSmallest s k p) := by
  unfold frontKSmallest EV.le; infer_instance

/-! ## Claim C4: the mqae trimming count -/

/-- the mqae trimming exactly as the spec words it: mean of the lowest
`⌈0.85 · F⌉` values of the absolute differences, minimum 1 retained
(`⌈17F/20⌉ = (17F + 19) / 20`).  Written from the spec for comparison with the
code's reduction. -/
def specMqaeCeil (d : List ℚ) : ℚ :=
  meanQ ((d.insertionSort (· ≤ ·)).take (max ((17 * d.length + 19) / 20) 1))

/-- the trimming the code performs: mean of the lowest `int(0.85 * F)` =
`⌊0.85 · F⌋` values, minimum 1 retained. -/
def specMqaeFloor (d : List ℚ) : ℚ :=
  meanQ ((d.insertionSort (· ≤ ·)).take (max (17 * d.length / 20) 1))

/-! ## Timestamps and the calendar feature encoder (source lines 59-503)

A timestamp is modelled as the record of calendar attributes that
`seasonal.py` reads off a pandas `DatetimeIndex` element; pandas derives all
of them from one instant, and the code only ever reads them, so the embedding
carries them as fields.  `weekday` is pandas' Monday=0..Sunday=6; pandas hours
range over 0..23; `epochSec` is seconds since 1970-01-01 (whole-second
instants — sub-second resolution plays no role in any claim);
`julianDate` is `DTindex.to_julian_date()`; `moonPhase` — modelled from the
spec: `moon_phase` (autots/tools/lunar.py, not under src/) is "a continuous
moon-phase feature (external lunar-phase function)", entering only as one
extra column, so it is carried as an attribute. -/

structure Timestamp where
  epochSec : ℤ
  year : ℕ
  month : ℕ
  day : ℕ
  weekday : ℕ
  hour : ℕ
  week : ℕ
  dayofyear : ℕ
  daysinmonth : ℕ
  isMonthEnd : Bool
  isMonthStart : Bool
  isQuarterStart : Bool
  isQuarterEnd : Bool
  isYearEnd : Bool
  julianDate : ℚ
  moonPhase : ℚ
deriving DecidableEq, Repr

/-- an arbitrary timestamp, used as the `getD` default. -/
def defaultTs : Timestamp :=
  ⟨0, 0, 0, 0, 0, 0, 0, 0, 0, false, false, false, false, false, 0, 0⟩

/-- pandas `quarter`, derived from the month. -/
def quarterOf (t : Timestamp) : ℕ := (t.month + 2) / 3

/-- `(DTindex.weekday > 4).astype(int)`. -/
def weekendOf (t : Timestamp) : ℚ := if 4 < t.weekday then 1 else 0

/-- `((DTindex.dayofyear > 74) & (DTindex.dayofyear < 258)).astype(int)`. -/
def midyearOf (t : Timestamp) : ℚ :=
  if 74 < t.dayofyear ∧ t.dayofyear < 258 then 1 else 0

/-- `(DTindex.day - 1) // 7 + 1`. -/
def weekdayOfMonthOf (t : Timestamp) : ℕ := (t.day - 1) / 7 + 1

/-- `pd.to_numeric(DTindex)`: the instant in integer nanoseconds. -/
def epochNanos (t : Timestamp) : ℤ := t.epochSec * 1000000000

/-- one `pd.get_dummies` block over a fixed category list: an indicator column
per category, in category order. -/
def oneHot (cats : List ℕ) (v : ℕ) : List ℚ :=
  cats.map fun c => if v = c then 1 else 0

/-- the fixed category domains of the one-hot schemes. -/
def monthCats : List ℕ := (List.range 12).map (· + 1)

def weekdayCats : List ℕ := List.range 7

def dayCats : List ℕ := (List.range 31).map (· + 1)

def womCats : List ℕ := (List.range 5).map (· + 1)

def hourCats : List ℕ := (List.range 24).map (· + 1)

def quarterCats : List ℕ := (List.range 4).map (· + 1)

def doyCats : List ℕ := (List.range 366).map (· + 1)

/-- month lengths of the reference leap year 2020 that fixes the category
domain of the `weekdaymonthofyear` / `dayofmonthofyear` components. -/
def monthLengths2020 : List ℕ := [31, 29, 31, 30, 31, 30, 31, 31, 30, 31, 30, 31]

/-- the `(month, day, weekday)` triples of
`pd.date_range("2020-01-01", "2021-01-01", freq='D')` (both endpoints
included; 2020-01-01 is a Wednesday, weekday 2). -/
def refDatesAux : ℕ → ℕ → List ℕ → List (ℕ × ℕ × ℕ)
  | _, _, [] => []
  | m, dayIdx, len :: rest =>
    ((List.range len).map fun d => (m, d + 1, (2 + dayIdx + d) % 7))
      ++ refDatesAux (m + 1) (dayIdx + len) rest

def refYearDates : List (ℕ × ℕ × ℕ) :=
  refDatesAux 1 0 monthLengths2020 ++ [(1, 1, (2 + 366) % 7)]

/-- `pd.unique`: first occurrences in order. -/
def firstUniquesAux : List ℕ → List ℕ → List ℕ
  | _, [] => []
  | seen, x :: xs =>
    if x ∈ seen then firstUniquesAux seen xs
    else x :: firstUniquesAux (x :: seen) xs

def firstUniques (l : List ℕ) : List ℕ := firstUniquesAux [] l

/-- category code of `weekdaymonthofyear`: the digit-string concatenation
`str(month) + str(min(int(str(weekofmonth) + str(weekday)), 50))` read as a
number — `weekofmonth ∈ 1..5` and `weekday ∈ 0..6` are single digits, so the
inner concatenation is `wom * 10 + weekday` and the outer one
`month * 100 + capped` (the cap keeps it two-digit). -/
def wmoyCode (month day weekday : ℕ) : ℕ :=
  month * 100 + min (((day - 1) / 7 + 1) * 10 + weekday) 50

def wmoyCats : List ℕ :=
  firstUniques (refYearDates.map fun x => wmoyCode x.1 x.2.1 x.2.2)

/-- category code of `dayofmonthofyear`: `str(month) + str(day)` read as a
number (this faithfully keeps the source's collisions, e.g. "1"+"12" and
"11"+"2" both encode 112 and are merged by `unique`). -/
def dmoyCode (month day : ℕ) : ℕ :=
  month * (if day < 10 then 10 else 100) + day

def dmoyCats : List ℕ :=
  firstUniques (refYearDates.map fun x => dmoyCode x.1 x.2.1)

/-- `create_datepart_components` (source lines 386-484): single date-part
one-hot blocks over scheme-fixed category domains; an unrecognized name
raises `ValueError`.  Boolean pandas columns are modelled as 0/1. -/
def createDatepartComponents (s : String) (ts : List Timestamp) :
    Except String (List (List ℚ)) :=
  if s = "dayofweek" then .ok (ts.map fun t => oneHot weekdayCats t.weekday)
  else if s = "month" then .ok (ts.map fun t => oneHot monthCats t.month)
  else if s = "day" then .ok (ts.map fun t => oneHot dayCats t.day)
  else if s = "weekend" then .ok (ts.map fun t => [weekendOf t])
  else if s = "weekdayofmonth" then
    .ok (ts.map fun t => oneHot womCats (weekdayOfMonthOf t))
  else if s = "weekdaymonthofyear" then
    .ok (ts.map fun t => oneHot wmoyCats (wmoyCode t.month t.day t.weekday))
  else if s = "dayofmonthofyear" then
    .ok (ts.map fun t => oneHot dmoyCats (dmoyCode t.month t.day))
  else if s = "hour" then .ok (ts.map fun t => oneHot hourCats t.hour)
  else if s = "daysinmonth" then .ok (ts.map fun t => [(t.daysinmonth : ℚ)])
  else if s = "quarter" then
    .ok (ts.map fun t => oneHot quarterCats (quarterOf t))
  else if s = "dayofyear" then
    .ok (ts.map fun t => oneHot doyCats t.dayofyear)
  else if s = "is_month_end" then
    .ok (ts.map fun t => [if t.isMonthEnd then 1 else 0])
  else if s = "is_month_start" then
    .ok (ts.map fun t => [if t.isMonthStart then 1 else 0])
  else if s = "is_quarter_start" then
    .ok (ts.map fun t => [if t.isQuarterStart then 1 else 0])
  else if s = "is_quarter_end" then
    .ok (ts.map fun t => [if t.isQuarterEnd then 1 else 0])
  else if s = "days_from_epoch" then
    .ok (ts.map fun t => [((t.epochSec - 946684800).fdiv 86400 : ℚ)])
  else .error ("create_datepart_components `" ++ s ++ "` is not recognized")

/-- the component name list (source lines 366-383). -/
def datepartComponents : List String :=
  ["dayofweek", "month", "day", "weekend", "weekdayofmonth", "hour",
   "daysinmonth", "quarter", "dayofyear", "weekdaymonthofyear",
   "dayofmonthofyear", "is_month_end", "is_month_start", "is_quarter_start",
   "is_quarter_end", "days_from_epoch"]

/-- `date_part_methods` (source lines 59-71). -/
def datePartMethods : List String :=
  ["recurring", "simple", "expanded", "simple_2", "simple_3", "lunar_phase",
   "simple_binarized", "simple_binarized_poly", "expanded_binarized",
   "common_fourier", "common_fourier_rw"]

/-! rows of the whole-frame schemes, in pandas column order (`get_dummies`
moves the encoded columns after the untouched ones). -/

def simpleRow (t : Timestamp) : List ℚ :=
  [(t.year : ℚ), (t.month : ℚ), (t.day : ℚ), (t.weekday : ℚ)]

def expandedExtraRow (t : Timestamp) : List ℚ :=
  [(t.hour : ℚ), (t.week : ℚ), (quarterOf t : ℚ), (t.dayofyear : ℚ),
   midyearOf t, weekendOf t, (weekdayOfMonthOf t : ℚ),
   (if t.isMonthEnd then 1 else 0), (if t.isMonthStart then 1 else 0),
   (if t.isQuarterEnd then 1 else 0), (if t.isYearEnd then 1 else 0),
   (t.daysinmonth : ℚ), ((epochNanos t - 946684800000000000 : ℤ) : ℚ),
   (if t.year % 4 = 0 then 1 else 0)]

def recurringRow (t : Timestamp) : List ℚ :=
  [(t.month : ℚ), (t.day : ℚ), (t.weekday : ℚ), weekendOf t, (t.hour : ℚ),
   (quarterOf t : ℚ), midyearOf t]

def simple2Row (t : Timestamp) : List ℚ :=
  [(t.month : ℚ), (t.day : ℚ), (t.weekday : ℚ), weekendOf t,
   (epochNanos t : ℚ) / 100000000000]

def simple3Row (t : Timestamp) : List ℚ :=
  [weekendOf t, (quarterOf t : ℚ), t.julianDate]
    ++ oneHot monthCats t.month ++ oneHot weekdayCats t.weekday

def simpleBinRow (t : Timestamp) : List ℚ :=
  [(t.day : ℚ), weekendOf t, t.julianDate]
    ++ oneHot monthCats t.month ++ oneHot weekdayCats t.weekday

def expandedBinRow (t : Timestamp) : List ℚ :=
  [weekendOf t, (quarterOf t : ℚ), t.julianDate]
    ++ oneHot monthCats t.month ++ oneHot weekdayCats t.weekday
    ++ oneHot dayCats t.day ++ oneHot womCats (weekdayOfMonthOf t)

/-! the Fourier sub-encoder.  `fourier_series` produces `2n` columns
`cos(2π j t / p)`, `sin(2π j t / p)`, `j = 1..n` — transcendental values with
no exact rational representative.  A block is therefore kept symbolic as its
defining data `(p, n, t)`; no claim inspects the trigonometric values. -/

structure FourierBlock where
  p : ℚ
  n : ℕ
  t : List ℚ
deriving DecidableEq, Repr

/-- a summand of the `common_fourier` frame: a plain block, or the elementwise
product of two blocks (the "interaction" terms). -/
inductive FourierPart where
  | block : FourierBlock → FourierPart
  | interaction : FourierBlock → FourierBlock → FourierPart
deriving DecidableEq, Repr

/-- epoch seconds of the Fourier origin `origin_ts = "2030-01-01"`. -/
def originEpochSec : ℤ := 1893456000

/-- `(DTindex - pd.Timestamp(origin_ts)).days`: `Timedelta.days` floors. -/
def tDays (t : Timestamp) : ℤ := (t.epochSec - originEpochSec).fdiv 86400

/-- the sub-daily time coordinate `t.days * 24 + t.components['minutes'] / 60`
(the `hours` component is genuinely absent in the source). -/
def tSubDaily (t : Timestamp) : ℚ :=
  let delta := t.epochSec - originEpochSec
  let d := delta.fdiv 86400
  let r := delta - 86400 * d
  (d * 24 : ℤ) + (((r % 3600) / 60 : ℤ) : ℚ) / 60

/-- `DTindex.min()` over the epoch seconds. -/
def dtMinSec (ts : List Timestamp) : ℤ :=
  match ts.map (·.epochSec) with
  | [] => 0
  | x :: r => r.foldl min x

/-- `DTindex.max()` over the epoch seconds. -/
def dtMaxSec (ts : List Timestamp) : ℤ :=
  match ts.map (·.epochSec) with
  | [] => 0
  | x :: r => r.foldl max x

/-- `seasonal_ratio` (source lines 221-224): span-in-days-plus-one over
count, with the single-row special case pinned to 1. -/
def seasonalRatioDays (ts : List Timestamp) : ℚ :=
  if ts.length ≤ 1 then 1
  else (((dtMaxSec ts - dtMinSec ts).fdiv 86400 + 1 : ℤ) : ℚ) / (ts.length : ℚ)

/-- the `common_fourier` harmonic plan (source lines 214-268): which Fourier
blocks and interactions are emitted for each seasonal-ratio regime.  The
final `.round(6)` and the trigonometric evaluation stay symbolic. -/
def commonFourierParts (ts : List Timestamp) : List FourierPart :=
  let r := seasonalRatioDays ts
  if r < 0.75 then
    let t := ts.map tSubDaily
    [.block ⟨8766, 10, t⟩, .block ⟨24, 3, t⟩, .block ⟨168, 5, t⟩,
     .interaction ⟨168, 5, t⟩ ⟨24, 5, t⟩,
     .interaction ⟨168, 3, t⟩ ⟨8766, 3, t⟩]
  else if r < 3.5 then
    let t := ts.map fun x => ((tDays x : ℤ) : ℚ)
    [.block ⟨365.25, 10, t⟩, .block ⟨7, 3, t⟩,
     .interaction ⟨7, 5, t⟩ ⟨365.25, 5, t⟩]
  else if r < 12 then
    let t := ts.map fun x => ((tDays x : ℤ) : ℚ)
    [.block ⟨365.25, 10, t⟩, .block ⟨28, 4, t⟩]
  else if r < 182 then
    let t := ts.map fun x => ((tDays x : ℤ) : ℚ)
    [.block ⟨365.25, 3, t⟩, .block ⟨1461, 10, t⟩]
  else
    let t := ts.map fun x => ((tDays x : ℤ) : ℚ)
    [.block ⟨1461, 10, t⟩]

/-- the result frame of `date_part` for a string method: a plain rational
matrix, a symbolic `common_fourier` frame (with, for the `_rw` variant, the
julian dates whose `** 0.65`-then-int drift column stays symbolic), or a
polynomially expanded frame (sklearn `PolynomialFeatures`, an external
collaborator per spec §4.1, kept symbolic: no claim evaluates it). -/
inductive DatePartFrame where
  | plain : List (List ℚ) → DatePartFrame
  | fourierFrame : List FourierPart → Option (List ℚ) → DatePartFrame
  | polyExpanded : DatePartFrame → ℕ → DatePartFrame
deriving DecidableEq, Repr

/-- substring search over character lists. -/
def infixOfB (needle : List Char) : List Char → Bool
  | [] => needle.isPrefixOf []
  | c :: t => needle.isPrefixOf (c :: t) || infixOfB needle t

/-- Python's `in` on strings: `strContains hay needle` is
`needle in hay`. -/
def strContains (hay needle : String) : Bool :=
  infixOfB needle.toList hay.toList

/-- the string-method dispatch of `date_part` (source lines 104-318), after
the `_poly` rewrite: the elif chain in source order.  Note the two substring
tests are faithful: `"simple_binarized" in method` checks the constant is a
substring of the method, `method in "expanded_binarized"` checks the method
is a substring of the constant.  Everything unmatched falls through to the
`else` branch, which builds the `simple` frame (plus extra columns only for
`method == "expanded"`). -/
def datePartCore (method : String) (ts : List Timestamp) :
    Except String DatePartFrame :=
  if method ∈ datepartComponents then
    (createDatepartComponents method ts).map .plain
  else if method = "recurring" then .ok (.plain (ts.map recurringRow))
  else if method = "simple_2" ∨ method = "simple_2_poly" then
    .ok (.plain (ts.map simple2Row))
  else if method = "simple_3" ∨ method = "lunar_phase" then
    .ok (.plain (ts.map fun t =>
      simple3Row t ++ (if method = "lunar_phase" then [t.moonPhase] else [])))
  else if strContains method "simple_binarized" then
    .ok (.plain (ts.map simpleBinRow))
  else if strContains "expanded_binarized" method then
    .ok (.plain (ts.map expandedBinRow))
  else if method = "common_fourier" ∨ method = "common_fourier_rw" then
    .ok (.fourierFrame (commonFourierParts ts)
      (if method = "common_fourier_rw" then some (ts.map (·.julianDate))
       else none))
  else
    .ok (.plain (ts.map fun t =>
      simpleRow t ++ (if method = "expanded" then expandedExtraRow t else [])))

/-- `date_part` on a string method with the default
`polynomial_degree=None, holiday_country=None` (the only call shape the
matching engines use): a method containing `"_poly"` is rewritten with the
substring removed and `polynomial_degree = 2` set, which wraps the frame in
the symbolic polynomial expansion. -/
def datePart (method : String) (ts : List Timestamp) :
    Except String DatePartFrame :=
  if strContains method "_poly" then
    (datePartCore (method.replace "_poly" "") ts).map (fun f => DatePartFrame.polyExpanded f 2)
  else datePartCore method ts

/-- the result of `create_seasonality_feature`: a frame, a raised exception,
or — decisively — a **returned** `ValueError` object (`return ValueError(...)`
in the source, line 501: the error is handed back as a value, not raised). -/
inductive SeasFeatOut where
  | frame : DatePartFrame → SeasFeatOut
  | raised : String → SeasFeatOut
  | errorValue : String → SeasFeatOut
deriving DecidableEq, Repr

/-- `create_seasonality_feature` (source lines 487-503) restricted to string
seasonalities (the numeric branch is `fourier_df`, embedded separately). -/
def createSeasonalityFeatureStr (s : String) (ts : List Timestamp) :
    SeasFeatOut :=
  if s ∈ datepartComponents then
    match createDatepartComponents s ts with
    | .ok m => .frame (.plain m)
    | .error e => .raised e
  else if s ∈ datePartMethods then
    match datePartCore s ts with
    | .ok f => .frame f
    | .error e => .raised e
  else
    .errorValue ("Seasonality `" ++ s ++ "` not recognized. Must be int, float, or a select type string such as 'dayofweek'")

/-- `fourier_df` (source lines 356-363): normalizes the period by the history
span in days and emits one symbolic Fourier block; when the span is zero days
the Python division `seasonality / history_days` raises `ZeroDivisionError`
before any output is built. -/
def fourierDf (ts : List Timestamp) (seasonality : ℚ) (order : ℕ) :
    Except String FourierBlock :=
  let historyDays : ℤ := (dtMaxSec ts - dtMinSec ts).fdiv 86400
  if historyDays = 0 then .error "ZeroDivisionError: division by zero"
  else .ok ⟨seasonality / (historyDays : ℚ), order,
    ts.map fun t => ((tDays t : ℤ) : ℚ)⟩

/-- `date_part` with a numeric method (source lines 113-114):
`fourier_df(DTindex, seasonality=method, order=6)` — no single-row special
case guards this path. -/
def datePartNumeric (ts : List Timestamp) (method : ℚ) :
    Except String FourierBlock :=
  fourierDf ts method 6

/-- the timestamp of the C1 counterexample: 2024-01-15, a Monday. -/
def c1Ts : Timestamp :=
  ⟨1705276800, 2024, 1, 15, 0, 0, 3, 15, 31,
   false, false, false, false, false, 2460324.5, 0⟩

/-- the midnight timestamp of the C9 witness (2024-01-15 00:00). -/
def c9Ts : Timestamp :=
  ⟨1705276800, 2024, 1, 15, 0, 0, 3, 15, 31,
   false, false, false, false, false, 2460324.5, 0⟩

def epochSecs (ts : List Timestamp) : List ℤ :=
  ts.map fun t => t.epochSec

/-- the two same-day timestamps of the C10 witness (midnight and 01:00 of
1970-01-01). -/
def c10TsA : Timestamp :=
  ⟨0, 1970, 1, 1, 3, 0, 1, 1, 31, false, true, true, false, false, 2440587.5, 0⟩

def c10TsB : Timestamp :=
  ⟨3600, 1970, 1, 1, 3, 1, 1, 1, 31, false, true, true, false, false, 2440587.5, 0⟩

/-! ## Arithmetic facts behind the mqae/mae comparison -/

/-- in a non-decreasing list, the mean of the first `m` entries is at most the
overall mean (stated multiplicatively to avoid division). -/
theorem sum_take_le_of_sorted (l : List ℚ) (m : ℕ)
    (hs : l.Sorted (· ≤ ·)) (hm : m ≤ l.length) :
    (l.take m).sum * l.length ≤ l.sum * m := by
  rcases eq_or_lt_of_le hm with heq | hlt
  · rw [heq, List.take_length]
  · set x : ℚ := l.get ⟨m, hlt⟩ with hx
    have htake : ∀ a ∈ l.take m, a ≤ x := by
      intro a ha
      obtain ⟨i, hi, rfl⟩ := List.mem_take_iff_getElem.mp ha
      have him : i < m := lt_of_lt_of_le hi (min_le_left _ _)
      have := List.pairwise_iff_get.mp hs ⟨i, by omega⟩ ⟨m, hlt⟩ him
      simpa [hx] using this
    have hdrop : ∀ a ∈ l.drop m, x ≤ a := by
      intro a ha
      obtain ⟨i, hi, rfl⟩ := List.mem_drop_iff_getElem.mp ha
      rcases Nat.eq_zero_or_pos i with rfl | hipos
      · simp [hx]
      · have := List.pairwise_iff_get.mp hs ⟨m, hlt⟩ ⟨m + i, by omega⟩
          (Fin.mk_lt_mk.mpr (by omega))
        simpa [hx] using this
    have h1 : (l.take m).sum ≤ (m : ℚ) * x := by
      have := List.sum_le_card_nsmul (l.take m) x htake
      rwa [List.length_take, min_eq_left hm, nsmul_eq_mul] at this
    have h2 : ((l.length - m : ℕ) : ℚ) * x ≤ (l.drop m).sum := by
      have := List.card_nsmul_le_sum (l.drop m) x hdrop
      rwa [List.length_drop, nsmul_eq_mul] at this
    have hsum : l.sum = (l.take m).sum + (l.drop m).sum := by
      conv_lhs => rw [← List.take_append_drop m l]
      rw [List.sum_append]
    have hlen : (l.length : ℚ) = (m : ℚ) + ((l.length - m : ℕ) : ℚ) := by
      have h : m + (l.length - m) = l.length := Nat.add_sub_cancel' hm
      calc (l.length : ℚ) = ((m + (l.length - m) : ℕ) : ℚ) := by rw [h]
        _ = (m : ℚ) + ((l.length - m : ℕ) : ℚ) := by push_cast; ring
    have hd0 : (0 : ℚ) ≤ ((l.length - m : ℕ) : ℚ) := Nat.cast_nonneg _
    have hm0 : (0 : ℚ) ≤ (m : ℚ) := Nat.cast_nonneg _
    have e1 := mul_le_mul_of_nonneg_right h1 hd0
    have e2 := mul_le_mul_of_nonneg_left h2 hm0
    rw [hsum, hlen]
    nlinarith [e1, e2]

/-- trimming to the smallest values cannot increase the mean: the `mqae`
reduction is bounded by the plain mean of the same absolute errors. -/
theorem mqaeQ_le_meanQ (l : List ℚ) : mqaeQ l ≤ meanQ l := by
  unfold mqaeQ
  by_cases hle : l.length ≤ 1
  · simp [hle]
  · simp only [hle, if_false]
    have hperm : List.Perm (l.insertionSort (· ≤ ·)) l := List.perm_insertionSort _ l
    have hsorted : List.Sorted (· ≤ ·) (l.insertionSort (· ≤ ·)) :=
      List.sorted_insertionSort _ l
    set ls := l.insertionSort (· ≤ ·) with hls
    set m := max (17 * l.length / 20) 1 with hm
    have hm1 : 1 ≤ m := le_max_right _ _
    have hmlen : m ≤ ls.length := by
      rw [hperm.length_eq, hm]; omega
    have key := sum_take_le_of_sorted ls m hsorted hmlen
    have hlentake : (ls.take m).length = m := by
      rw [List.length_take]; omega
    unfold meanQ
    rw [hlentake, ← hperm.sum_eq, ← hperm.length_eq]
    rw [div_le_div_iff₀ (by exact_mod_cast hm1) (by
      have : 1 ≤ ls.length := le_trans hm1 hmlen
      exact_mod_cast this)]
    exact_mod_cast key

theorem sum_range_map_mono (f g : ℕ → ℚ) :
    ∀ n : ℕ, (∀ i < n, f i ≤ g i) →
      ((List.range n).map f).sum ≤ ((List.range n).map g).sum := by
  intro n
  induction n with
  | zero => simp
  | succ n ih =>
    intro h
    rw [List.range_succ, List.map_append, List.map_append,
      List.sum_append, List.sum_append]
    have h1 := ih (fun i hi => h i (by omega))
    have h2 := h n (by omega)
    simp only [List.map_cons, List.map_nil, List.sum_cons, List.sum_nil]
    linarith

/-- monotonicity of the mean over two equally indexed families. -/
theorem meanQ_mono (f g : ℕ → ℚ) (n : ℕ) (h : ∀ i < n, f i ≤ g i) :
    meanQ ((List.range n).map f) ≤ meanQ ((List.range n).map g) := by
  rcases Nat.eq_zero_or_pos n with rfl | hn
  · simp [meanQ]
  · unfold meanQ
    rw [List.length_map, List.length_map, List.length_range]
    have := sum_range_map_mono f g n h
    gcongr

/-- the two reductions compare pointwise on the same slice pair. -/
theorem metricCellQ_mqae_le_mae (a b : List ℚ) :
    metricCellQ "mqae" a b ≤ metricCellQ "mae" a b := by
  unfold metricCellQ
  norm_num
  exact mqaeQ_le_meanQ _

/-- C8: on the same inputs the `mqae` candidate score of the window matcher is
bounded by the `mae` candidate score — trimming the largest absolute errors
cannot increase the mean of the remaining ones.  Holds for every input matrix
and every window configuration, with no hypotheses. -/
theorem c8_mqae_le_mae (array : List (List ℚ)) (k ws fl c : ℕ) :
    windowCandScore "mqae" array k ws fl c ≤ windowCandScore "mae" array k ws fl c := by
  unfold windowCandScore
  apply meanQ_mono
  intro f _
  unfold windowCellScore
  exact metricCellQ_mqae_le_mae _ _

/-! ## Structure of the offset matrix -/

/-- cell formula of the pre-sentinel offset matrix. -/
theorem windowOffsetsRaw_cell (minIdx : List ℕ) (ws fl s j : ℕ)
    (hs : s < fl) (hj : j < minIdx.length) :
    ((windowOffsetsRaw minIdx ws fl).getD s []).getD j 0
      = (minIdx.getD j 0 : ℤ) + ws + s := by
  simp only [windowOffsetsRaw, List.getD_eq_getElem?_getD, List.getElem?_map,
    List.getElem?_range hs, List.getElem?_eq_getElem hj, Option.map_some',
    Option.getD_some]
  ring

/-- every cell of the raw offset matrix decomposes as `s + c + ws` with
`s < fl` a step and `c` a selected candidate index. -/
theorem windowOffsetsRaw_mem (minIdx : List ℕ) (ws fl : ℕ) (row : List ℤ)
    (v : ℤ) (hrow : row ∈ windowOffsetsRaw minIdx ws fl) (hv : v ∈ row) :
    ∃ s c : ℕ, s < fl ∧ c ∈ minIdx ∧ v = (s : ℤ) + c + ws := by
  unfold windowOffsetsRaw at hrow
  obtain ⟨s, hs, rfl⟩ := List.mem_map.mp hrow
  obtain ⟨c, hc, rfl⟩ := List.mem_map.mp hv
  exact ⟨s, c, List.mem_range.mp hs, hc, rfl⟩

/-- under the small-k exclusion zone (`n_tail = forecast_length`) every raw
offset is a valid history index: the tail reservation is exactly large enough,
so the unguarded small-k path can never point past the end of history. -/
theorem windowOffsetsRaw_bounds (array : List (List ℚ)) (k ws fl : ℕ)
    (p : List ℕ) (hk : k ≤ 5)
    (hfit : ws + nTail k ws fl ≤ array.length)
    (hp : ∀ i ∈ p, i < windowCountQ array k ws fl) :
    ∀ row ∈ windowOffsetsRaw (p.take k) ws fl, ∀ v ∈ row,
      0 ≤ v ∧ v < (array.length : ℤ) := by
  intro row hrow v hv
  obtain ⟨s, c, hs, hc, rfl⟩ := windowOffsetsRaw_mem _ _ _ _ _ hrow hv
  have hcp : c ∈ p := List.mem_of_mem_take hc
  have hcount := hp c hcp
  have hnt : nTail k ws fl = fl := by rw [nTail, if_neg (by omega)]
  rw [windowCountQ, windowBase, List.length_take, hnt] at hcount
  rw [hnt] at hfit
  constructor
  · positivity
  · have hlen : min (array.length - fl) array.length = array.length - fl := by
      omega
    rw [hlen] at hcount
    omega

/-- C5 counterexample: the claim's final clause — that with `k ≤ 5` an
out-of-range offset may be returned — is impossible.  In every configuration
in which the Python call completes (positive window and horizon, window fits
inside the candidate rows, selected indices drawn from the candidate range, as
`np.argsort` / `np.argpartition` guarantee) the small-k exclusion zone
`n_tail = forecast_length` keeps every offset strictly below the history
length. -/
theorem c5_small_k_out_of_range_counterexample :
    ¬ ∃ (array : List (List ℚ)) (k ws fl : ℕ) (p : List ℕ)
        (row : List ℤ) (v : ℤ),
      k ≤ 5 ∧ 1 ≤ ws ∧ 1 ≤ fl ∧ ws + nTail k ws fl ≤ array.length ∧
      (∀ i ∈ p, i < windowCountQ array k ws fl) ∧
      row ∈ windowOffsets (p.take k) ws fl k array.length ∧
      v ∈ row ∧ (array.length : ℤ) ≤ v := by
  rintro ⟨array, k, ws, fl, p, row, v, hk, hws, hfl, hfit, hp, hrow, hv, hge⟩
  rw [windowOffsets, if_neg (by omega)] at hrow
  have := windowOffsetsRaw_bounds array k ws fl p hk hfit hp row hrow v hv
  omega

/-- C5 (amended): when `k > 5` every returned cell is either the sentinel `-1`
or a valid index strictly below the history length; when `k ≤ 5` no sentinel
replacement is performed — the raw offsets are returned unchanged — but no
replacement is ever needed, because with `n_tail = forecast_length` every raw
offset is provably a valid history index. -/
theorem c5_sentinel_bounds (array : List (List ℚ)) (k ws fl : ℕ) (p : List ℕ)
    (hws : 1 ≤ ws) (_hfl : 1 ≤ fl)
    (hfit : ws + nTail k ws fl ≤ array.length)
    (hp : ∀ i ∈ p, i < windowCountQ array k ws fl) :
    (5 < k → ∀ row ∈ windowOffsets (p.take k) ws fl k array.length,
        ∀ v ∈ row, v = -1 ∨ (0 ≤ v ∧ v < (array.length : ℤ))) ∧
    (k ≤ 5 → windowOffsets (p.take k) ws fl k array.length
          = windowOffsetsRaw (p.take k) ws fl
        ∧ ∀ row ∈ windowOffsetsRaw (p.take k) ws fl, ∀ v ∈ row,
            0 ≤ v ∧ v < (array.length : ℤ)) := by
  constructor
  · intro hk row hrow v hv
    rw [windowOffsets, if_pos hk] at hrow
    obtain ⟨row0, hrow0, rfl⟩ := List.mem_map.mp hrow
    obtain ⟨v0, hv0, rfl⟩ := List.mem_map.mp hv
    by_cases hge : (array.length : ℤ) ≤ v0
    · left; simp [hge]
    · right
      obtain ⟨s, c, hs, hc, rfl⟩ := windowOffsetsRaw_mem _ _ _ _ _ hrow0 hv0
      constructor
      · simp only [if_neg hge]
        positivity

      · simp only [if_neg hge]
        omega
  · intro hk
    refine ⟨by rw [windowOffsets, if_neg (by omega)], ?_⟩
    exact windowOffsetsRaw_bounds array k ws fl p hk hfit hp

/-- witness for C5 (amended): the theorem instantiated at a concrete
configuration with `k = 6 > 5`, all hypotheses discharged by evaluation. -/
theorem c5_sentinel_bounds_witness :
    (1 ≤ 3 ∧ 1 ≤ 2 ∧ 3 + nTail 6 3 2 ≤ c5Array.length ∧
      (∀ i ∈ List.range 16, i < windowCountQ c5Array 6 3 2)) ∧
    (∀ row ∈ windowOffsets ((List.range 16).take 6) 3 2 6 c5Array.length,
        ∀ v ∈ row, v = -1 ∨ (0 ≤ v ∧ v < (c5Array.length : ℤ))) := by
  refine ⟨⟨by decide, by decide, by decide, by decide⟩, ?_⟩
  exact (c5_sentinel_bounds c5Array 6 3 2 (List.range 16)
    (by decide) (by decide) (by decide) (by decide)).1 (by decide)

/-! ## Selection facts -/

/-- a `sortedIdx` witness enumerates exactly the indices `0..n-1`. -/
theorem sortedIdx_mem (s : List ℚ) (p : List ℕ) (h : sortedIdx s p) :
    ∀ i < s.length, i ∈ p := by
  obtain ⟨hl, hnd, hbound, _⟩ := h
  have hsub : p.toFinset ⊆ Finset.range s.length := by
    intro i hi
    rw [List.mem_toFinset] at hi
    exact Finset.mem_range.mpr (hbound i hi)
  have hcard : (Finset.range s.length).card ≤ p.toFinset.card := by
    rw [Finset.card_range, List.toFinset_card_of_nodup hnd, hl]
  have heq : p.toFinset = Finset.range s.length :=
    Finset.eq_of_subset_of_card_le hsub hcard
  intro i hi
  have : i ∈ p.toFinset := heq ▸ Finset.mem_range.mpr hi
  exact List.mem_toFinset.mp this

/-- when the score vector has a unique strict minimum at index 0, every valid
argsort output starts with 0: with `k = 1` and `full_sort = True` the selected
candidate index is 0. -/
theorem sortedIdx_take_one (s : List ℚ) (p : List ℕ) (h : sortedIdx s p)
    (hlen : 1 ≤ s.length)
    (h0 : ∀ i < s.length, i ≠ 0 → s.getD 0 0 < s.getD i 0) :
    p.take 1 = [0] := by
  obtain ⟨hl, hnd, hbound, hpw⟩ := h
  match hpc : p with
  | [] => simp at hl; omega
  | q :: rest =>
    have hq : q < s.length := hbound q (by simp)
    suffices hq0 : q = 0 by rw [hq0]; rfl
    by_contra hq0
    have h0p : 0 ∈ q :: rest := by
      rw [← hpc]
      exact sortedIdx_mem s p (hpc ▸ ⟨hl, hnd, hbound, hpw⟩) 0 (by omega)
    have h0rest : 0 ∈ rest := by
      rcases List.mem_cons.mp h0p with h | h
      · exact absurd h.symm hq0
      · exact h
    have hle : s.getD q 0 ≤ s.getD 0 0 := by
      rw [List.map_cons] at hpw
      exact (List.pairwise_cons.mp hpw).1 _ (List.mem_map_of_mem _ h0rest)
    exact absurd hle (not_le.mpr (h0 q hq hq0))

/-- the candidate scores of the scenario, evaluated: candidate 0 (the window
identical to the reference) scores 0, all other candidates score strictly
more. -/
theorem c2_scores_eval :
    windowCandScoresVec "mae" c2Array 1 3 2
      = [0, 3, 17/3, 8, 8, 8, 8, 8, 8, 8, 8, 8, 8, 8, 8, 19/3] := by
  decide

set_option maxRecDepth 8192 in
/-- C2: (i) before any sentinel replacement, the offset at step `s` and
selected-candidate column `j` is `min_idx[j] + window_size + s`; (ii) in the
concrete scenario (history length 20, `metric="mae"`, `window_size=3`, `k=1`,
`full_sort=True`, reference window feature-identical to rows 0-2), every valid
full-sort selection picks candidate 0, its score is 0, and `forecast_length=2`
returns the offsets `[3, 4]`. -/
theorem c2_window_match_offsets :
    (∀ (minIdx : List ℕ) (ws fl s j : ℕ), s < fl → j < minIdx.length →
      ((windowOffsetsRaw minIdx ws fl).getD s []).getD j 0
        = (minIdx.getD j 0 : ℤ) + ws + s) ∧
    (∀ p : List ℕ, sortedIdx (windowCandScoresVec "mae" c2Array 1 3 2) p →
      p.take 1 = [0] ∧ windowCandScore "mae" c2Array 1 3 2 0 = 0 ∧
      windowOffsets (p.take 1) 3 2 1 c2Array.length = [[3], [4]]) := by
  constructor
  · intro minIdx ws fl s j hs hj
    exact windowOffsetsRaw_cell minIdx ws fl s j hs hj
  · intro p hp
    have hlen : 1 ≤ (windowCandScoresVec "mae" c2Array 1 3 2).length := by
      decide
    have hmin : ∀ i < (windowCandScoresVec "mae" c2Array 1 3 2).length, i ≠ 0 →
        (windowCandScoresVec "mae" c2Array 1 3 2).getD 0 0
          < (windowCandScoresVec "mae" c2Array 1 3 2).getD i 0 := by
      decide
    have h1 : p.take 1 = [0] := sortedIdx_take_one _ _ hp hlen hmin
    have hscore : windowCandScore "mae" c2Array 1 3 2 0 = 0 := by decide
    refine ⟨h1, hscore, ?_⟩
    rw [h1]
    decide

set_option maxRecDepth 8192 in
/-- witness for C2: the scenario instantiated at an explicit valid argsort
output (`c2Perm`), with the hypotheses discharged by evaluation. -/
theorem c2_window_match_offsets_witness :
    sortedIdx (windowCandScoresVec "mae" c2Array 1 3 2) c2Perm ∧
    c2Perm.take 1 = [0] ∧
    windowCandScore "mae" c2Array 1 3 2 0 = 0 ∧
    windowOffsets (c2Perm.take 1) 3 2 1 c2Array.length = [[3], [4]] ∧
    ((windowOffsetsRaw [0] 3 2).getD 1 []).getD 0 0
      = (([0] : List ℕ).getD 0 0 : ℤ) + 3 + 1 := by
  have h := c2_window_match_offsets
  have hsi : sortedIdx (windowCandScoresVec "mae" c2Array 1 3 2) c2Perm := by
    decide
  obtain ⟨h1, h2, h3⟩ := h.2 c2Perm hsi
  exact ⟨hsi, h1, h2, h3, h.1 [0] 3 2 1 0 (by decide) (by decide)⟩

/-! ## Facts about the extended-value reductions -/

namespace EV

theorem sumL_cons (x : EV) (l : List EV) : sumL (x :: l) = add x (sumL l) := rfl

theorem sumL_all_pinf : ∀ l : List EV, l ≠ [] → (∀ x ∈ l, x = pinf) →
    sumL l = pinf
  | [], h, _ => absurd rfl h
  | [x], _, h => by rw [sumL_cons, h x (by simp)]; rfl
  | x :: y :: t, _, h => by
    rw [sumL_cons, h x (by simp),
      sumL_all_pinf (y :: t) (by simp) (fun z hz => h z (by simp [hz]))]
    rfl

theorem sumL_all_num : ∀ l : List EV, (∀ x ∈ l, ∃ q : ℚ, x = num q) →
    ∃ q : ℚ, sumL l = num q
  | [], _ => ⟨0, rfl⟩
  | x :: t, h => by
    obtain ⟨qx, hx⟩ := h x (by simp)
    obtain ⟨qt, ht⟩ := sumL_all_num t (fun z hz => h z (by simp [hz]))
    exact ⟨qx + qt, by rw [sumL_cons, hx, ht]; rfl⟩

theorem sumL_all_num_nonneg : ∀ l : List EV,
    (∀ x ∈ l, ∃ q : ℚ, x = num q ∧ 0 ≤ q) →
    ∃ q : ℚ, sumL l = num q ∧ 0 ≤ q
  | [], _ => ⟨0, rfl, le_refl 0⟩
  | x :: t, h => by
    obtain ⟨qx, hx, hx0⟩ := h x (by simp)
    obtain ⟨qt, ht, ht0⟩ := sumL_all_num_nonneg t (fun z hz => h z (by simp [hz]))
    exact ⟨qx + qt, by rw [sumL_cons, hx, ht]; rfl, by positivity⟩

theorem add_nan_left (x : EV) : add nan x = nan := by cases x <;> rfl

theorem sumL_nan_head (l : List EV) : sumL (nan :: l) = nan := by
  rw [sumL_cons]; exact add_nan_left _

theorem sumL_all_nan : ∀ l : List EV, l ≠ [] → (∀ x ∈ l, x = nan) →
    sumL l = nan
  | [], h, _ => absurd rfl h
  | x :: t, _, h => by rw [h x (by simp)]; exact sumL_nan_head t

theorem div_pinf_num (y : ℚ) (hy : 0 ≤ y) : div pinf (num y) = pinf := by
  simp [div, hy]

theorem div_num_num (x y : ℚ) (hy : y ≠ 0) :
    div (num x) (num y) = num (x / y) := by
  simp [div, hy]

theorem div_nan_num (y : ℚ) : div nan (num y) = nan := by simp [div]

theorem div_pinf_natCast (n : ℕ) : div pinf (num n) = pinf :=
  div_pinf_num _ (by positivity)

theorem meanL_all_pinf (l : List EV) (hne : l ≠ []) (h : ∀ x ∈ l, x = pinf) :
    meanL l = pinf := by
  unfold meanL
  rw [sumL_all_pinf l hne h, div_pinf_natCast]

theorem meanL_all_nan (l : List EV) (hne : l ≠ []) (h : ∀ x ∈ l, x = nan) :
    meanL l = nan := by
  unfold meanL
  rw [sumL_all_nan l hne h, div_nan_num]

theorem meanL_all_num (l : List EV) (hne : l ≠ [])
    (h : ∀ x ∈ l, ∃ q : ℚ, x = num q) : ∃ q : ℚ, meanL l = num q := by
  obtain ⟨s, hs⟩ := sumL_all_num l h
  refine ⟨s / l.length, ?_⟩
  unfold meanL
  rw [hs]
  exact div_num_num _ _ (by
    have : l.length ≠ 0 := fun h0 => hne (List.length_eq_zero.mp h0)
    exact_mod_cast this)

theorem foldl_max2_pinf : ∀ t : List EV, (∀ z ∈ t, z = pinf) →
    t.foldl max2 pinf = pinf
  | [], _ => rfl
  | y :: ys, h => by
    rw [List.foldl_cons, h y (by simp)]
    exact foldl_max2_pinf ys (fun z hz => h z (by simp [hz]))

theorem foldl_max2_num : ∀ (t : List EV) (q0 : ℚ),
    (∀ z ∈ t, ∃ q : ℚ, z = num q) → ∃ q : ℚ, t.foldl max2 (num q0) = num q
  | [], q0, _ => ⟨q0, rfl⟩
  | y :: ys, q0, h => by
    obtain ⟨qy, hy⟩ := h y (by simp)
    rw [List.foldl_cons, hy]
    exact foldl_max2_num ys (max q0 qy) (fun z hz => h z (by simp [hz]))

theorem maxL_all_pinf (l : List EV) (hne : l ≠ []) (h : ∀ x ∈ l, x = pinf) :
    maxL l = pinf := by
  match l, hne with
  | x :: t, _ =>
    unfold maxL
    rw [h x (by simp)]
    exact foldl_max2_pinf t (fun z hz => h z (by simp [hz]))

theorem maxL_all_num (l : List EV) (hne : l ≠ [])
    (h : ∀ x ∈ l, ∃ q : ℚ, x = num q) : ∃ q : ℚ, maxL l = num q := by
  match l, hne with
  | x :: t, _ =>
    obtain ⟨qx, hx⟩ := h x (by simp)
    unfold maxL
    rw [hx]
    exact foldl_max2_num t qx (fun z hz => h z (by simp [hz]))

theorem mqaeL_all_pinf (l : List EV) (hne : l ≠ []) (h : ∀ x ∈ l, x = pinf) :
    mqaeL l = pinf := by
  unfold mqaeL
  by_cases hlen : l.length ≤ 1
  · rw [if_pos hlen]
    exact meanL_all_pinf l hne h
  · rw [if_neg hlen]
    apply meanL_all_pinf
    · have hslen : (l.insertionSort le).length = l.length :=
        (List.perm_insertionSort le l).length_eq
      have hlt : ((l.insertionSort le).take (max (17 * l.length / 20) 1)).length
          = min (max (17 * l.length / 20) 1) l.length := by
        rw [List.length_take, hslen]
      intro hnil
      rw [hnil] at hlt
      simp only [List.length_nil] at hlt
      omega
    · intro z hz
      exact h z ((List.perm_insertionSort le l).subset (List.mem_of_mem_take hz))

theorem mqaeL_all_num (l : List EV) (hne : l ≠ [])
    (h : ∀ x ∈ l, ∃ q : ℚ, x = num q) : ∃ q : ℚ, mqaeL l = num q := by
  unfold mqaeL
  by_cases hlen : l.length ≤ 1
  · rw [if_pos hlen]
    exact meanL_all_num l hne h
  · rw [if_neg hlen]
    apply meanL_all_num
    · have hslen : (l.insertionSort le).length = l.length :=
        (List.perm_insertionSort le l).length_eq
      have hlt : ((l.insertionSort le).take (max (17 * l.length / 20) 1)).length
          = min (max (17 * l.length / 20) 1) l.length := by
        rw [List.length_take, hslen]
      intro hnil
      rw [hnil] at hlt
      simp only [List.length_nil] at hlt
      omega
    · intro z hz
      exact h z ((List.perm_insertionSort le l).subset (List.mem_of_mem_take hz))

/-- elementwise evaluation over a masked (all-`+inf`) row zipped with a finite
row: every metric's elementwise term is the constant `f pinf (num q) = c`. -/
theorem zipWith_maskedRow (f : EV → EV → EV) (c : EV)
    (hf : ∀ q : ℚ, f pinf (num q) = c) :
    ∀ (row brow : List EV), (∀ y ∈ brow, ∃ q : ℚ, y = num q) →
    ∀ z ∈ List.zipWith f (row.map fun _ => pinf) brow, z = c
  | [], _, _ => by simp
  | _ :: _, [], _ => by simp
  | r :: rs, b :: bs, hb => by
    simp only [List.map_cons, List.zipWith_cons_cons, List.mem_cons]
    rintro z (rfl | hz)
    · obtain ⟨q, hq⟩ := hb b (by simp)
      rw [hq]; exact hf q
    · exact zipWith_maskedRow f c hf rs bs
        (fun y hy => hb y (by simp [hy])) z hz

/-- elementwise evaluation over two finite rows: every metric's elementwise
term is finite. -/
theorem zipWith_bothNum (f : EV → EV → EV)
    (hf : ∀ x y : ℚ, ∃ q : ℚ, f (num x) (num y) = num q) :
    ∀ (a b : List EV), (∀ x ∈ a, ∃ q : ℚ, x = num q) →
    (∀ y ∈ b, ∃ q : ℚ, y = num q) →
    ∀ z ∈ List.zipWith f a b, ∃ q : ℚ, z = num q
  | [], _, _, _ => by simp
  | _ :: _, [], _, _ => by simp
  | x :: xs, y :: ys, ha, hb => by
    simp only [List.zipWith_cons_cons, List.mem_cons]
    rintro z (rfl | hz)
    · obtain ⟨qx, hx⟩ := ha x (by simp)
      obtain ⟨qy, hy⟩ := hb y (by simp)
      rw [hx, hy]; exact hf qx qy
    · exact zipWith_bothNum f hf xs ys (fun u hu => ha u (by simp [hu]))
        (fun u hu => hb u (by simp [hu])) z hz

/-- as `zipWith_bothNum`, additionally carrying non-negativity (needed before
the square root). -/
theorem zipWith_bothNum_nonneg (f : EV → EV → EV)
    (hf : ∀ x y : ℚ, ∃ q : ℚ, f (num x) (num y) = num q ∧ 0 ≤ q) :
    ∀ (a b : List EV), (∀ x ∈ a, ∃ q : ℚ, x = num q) →
    (∀ y ∈ b, ∃ q : ℚ, y = num q) →
    ∀ z ∈ List.zipWith f a b, ∃ q : ℚ, z = num q ∧ 0 ≤ q
  | [], _, _, _ => by simp
  | _ :: _, [], _, _ => by simp
  | x :: xs, y :: ys, ha, hb => by
    simp only [List.zipWith_cons_cons, List.mem_cons]
    rintro z (rfl | hz)
    · obtain ⟨qx, hx⟩ := ha x (by simp)
      obtain ⟨qy, hy⟩ := hb y (by simp)
      rw [hx, hy]; exact hf qx qy
    · exact zipWith_bothNum_nonneg f hf xs ys (fun u hu => ha u (by simp [hu]))
        (fun u hu => hb u (by simp [hu])) z hz

/-! elementwise facts of the individual metric terms -/

theorem sub_pinf_num (q : ℚ) : sub pinf (num q) = pinf := rfl

theorem sub_num_num (x y : ℚ) : sub (num x) (num y) = num (x - y) := by
  show num (x + -y) = num (x - y)
  rw [← sub_eq_add_neg]

theorem abs_sub_masked (q : ℚ) : abs (sub pinf (num q)) = pinf := rfl

theorem sq_sub_masked (q : ℚ) : sq (sub pinf (num q)) = pinf := rfl

theorem sq_abs_sub_masked (q : ℚ) : sq (abs (sub pinf (num q))) = pinf := rfl

theorem canberra_elem_masked (q : ℚ) :
    div (abs (sub pinf (num q)))
      (if add (abs pinf) (abs (num q)) = num 0 then num 1
       else add (abs pinf) (abs (num q))) = nan := by
  have h1 : add (abs pinf) (abs (num q)) = pinf := rfl
  rw [h1]
  rw [if_neg (by simp)]
  rfl

theorem abs_sub_num (x y : ℚ) :
    abs (sub (num x) (num y)) = num |x - y| := by
  rw [sub_num_num]; rfl

theorem sq_sub_num (x y : ℚ) :
    sq (sub (num x) (num y)) = num ((x - y) * (x - y)) := by
  rw [sub_num_num]; rfl

theorem sq_abs_sub_num (x y : ℚ) :
    sq (abs (sub (num x) (num y))) = num (|x - y| * |x - y|) := by
  rw [abs_sub_num]; rfl

theorem sumL_map_num : ∀ l : List ℚ, sumL (l.map num) = num l.sum
  | [] => rfl
  | x :: t => by
    rw [List.map_cons, sumL_cons, sumL_map_num t, List.sum_cons]
    rfl

theorem meanL_map_num (l : List ℚ) (h : l ≠ []) :
    meanL (l.map num) = num (AutoTSSeasonal.meanQ l) := by
  unfold meanL AutoTSSeasonal.meanQ
  rw [sumL_map_num, List.length_map]
  exact div_num_num _ _ (by
    have : l.length ≠ 0 := fun h0 => h (List.length_eq_zero.mp h0)
    exact_mod_cast this)

theorem orderedInsert_map_num (x : ℚ) : ∀ l : List ℚ,
    List.orderedInsert le (num x) (l.map num)
      = (List.orderedInsert (· ≤ ·) x l).map num
  | [] => rfl
  | y :: t => by
    rw [List.map_cons, List.orderedInsert, List.orderedInsert]
    by_cases hxy : x ≤ y
    · rw [if_pos (by simp [le, leB, hxy]), if_pos hxy, List.map_cons, List.map_cons]
    · rw [if_neg (by simp [le, leB, hxy]), if_neg hxy, List.map_cons,
        orderedInsert_map_num x t]

theorem insertionSort_map_num : ∀ l : List ℚ,
    (l.map num).insertionSort le = (l.insertionSort (· ≤ ·)).map num
  | [] => rfl
  | x :: t => by
    rw [List.map_cons, List.insertionSort, List.insertionSort,
      insertionSort_map_num t, orderedInsert_map_num]

theorem mqaeL_map_num (l : List ℚ) (h : l ≠ []) :
    mqaeL (l.map num) = num (AutoTSSeasonal.mqaeQ l) := by
  unfold mqaeL AutoTSSeasonal.mqaeQ
  rw [List.length_map]
  by_cases hlen : l.length ≤ 1
  · rw [if_pos hlen, if_pos hlen]
    exact meanL_map_num l h
  · rw [if_neg hlen, if_neg hlen, insertionSort_map_num, ← List.map_take]
    apply meanL_map_num
    intro hnil
    have h2 := congrArg List.length hnil
    rw [List.length_take, (List.perm_insertionSort _ l).length_eq,
      List.length_nil] at h2
    omega

theorem zipWith_absSub_map_num : ∀ a b : List ℚ,
    List.zipWith (fun x y => EV.abs (EV.sub x y)) (a.map num) (b.map num)
      = (List.zipWith (fun x y => |x - y|) a b).map num
  | [], _ => by simp
  | _ :: _, [] => by simp
  | x :: xs, y :: ys => by
    simp only [List.map_cons, List.zipWith_cons_cons]
    rw [abs_sub_num, zipWith_absSub_map_num xs ys]

theorem le_pinf_elim (x : EV) (h : le pinf x) : x = pinf ∨ x = nan := by
  cases x with
  | pinf => exact Or.inl rfl
  | nan => exact Or.inr rfl
  | ninf => exact absurd h (by decide)
  | num q => exact absurd h (by simp [le, leB])

theorem le_nan_elim (x : EV) (h : le nan x) : x = nan := by
  cases x with
  | nan => rfl
  | pinf => exact absurd h (by decide)
  | ninf => exact absurd h (by decide)
  | num q => exact absurd h (by simp [le, leB])

theorem canberra_elem_num (x y : ℚ) :
    div (abs (sub (num x) (num y)))
      (if add (abs (num x)) (abs (num y)) = num 0 then num 1
       else add (abs (num x)) (abs (num y)))
    = num (|x - y| / (if |x| + |y| = 0 then 1 else |x| + |y|)) := by
  have h1 : add (abs (num x)) (abs (num y)) = num (|x| + |y|) := rfl
  rw [abs_sub_num, h1]
  by_cases h : |x| + |y| = 0
  · rw [if_pos (by rw [h]), if_pos h]
    exact div_num_num _ _ one_ne_zero
  · rw [if_neg (by simpa using h), if_neg h]
    exact div_num_num _ _ h

end EV

/-! ## Row-level facts of the masked independent matcher -/

/-- reading one row of the masked history frame. -/
theorem applyMask_getD : ∀ (hist : List (List EV)) (mask : List Bool) (i : ℕ),
    mask.length = hist.length → i < hist.length →
    (applyMask hist mask).getD i []
      = if mask.getD i false then (hist.getD i []).map (fun _ => EV.pinf)
        else hist.getD i []
  | [], _, i, _, hi => by simp at hi
  | _ :: _, [], _, hlen, _ => by simp at hlen
  | r :: hs, b :: ms, 0, _, _ => by
    simp only [applyMask, List.zipWith_cons_cons, List.getD_cons_zero]
  | r :: hs, b :: ms, i + 1, hlen, hi => by
    simp only [applyMask, List.zipWith_cons_cons, List.getD_cons_succ]
    exact applyMask_getD hs ms i (by simpa using hlen) (by simpa using hi)

/-- reading through a `map` at an in-range index. -/
theorem getD_map_lt {α β : Type} (f : α → β) (l : List α) (i : ℕ) (d : β)
    (d' : α) (hi : i < l.length) : (l.map f).getD i d = f (l.getD i d') := by
  rw [List.getD_eq_getElem?_getD, List.getElem?_map, List.getElem?_eq_getElem hi,
    List.getD_eq_getElem?_getD, List.getElem?_eq_getElem hi]
  rfl

/-- a masked history row scores `+inf` against a finite future row under every
metric except `canberra`, where `inf / inf` makes the score NaN. -/
theorem indepCellScore_masked (metric : String) (row brow : List EV) (F : ℕ)
    (hm : metric ∈ metricNames)
    (hrow : row.length = F) (hbrow : brow.length = F) (hF : 1 ≤ F)
    (hb : ∀ y ∈ brow, ∃ q : ℚ, y = EV.num q) :
    indepCellScore metric (row.map fun _ => EV.pinf) brow
      = if metric = "canberra" then EV.nan else EV.pinf := by
  have hzne : ∀ f : EV → EV → EV,
      (List.zipWith f (row.map fun _ => EV.pinf) brow) ≠ [] := by
    intro f h
    have h2 : (List.zipWith f (row.map fun _ => EV.pinf) brow).length = F := by
      rw [List.length_zipWith, List.length_map, hrow, hbrow, min_self]
    rw [h] at h2
    simp only [List.length_nil] at h2
    omega
  simp only [metricNames, List.mem_cons, List.not_mem_nil, or_false] at hm
  rcases hm with rfl | rfl | rfl | rfl | rfl | rfl | rfl
  · rw [if_neg (by decide)]
    show EV.meanL (List.zipWith (fun x y => EV.abs (EV.sub x y))
      (row.map fun _ => EV.pinf) brow) = EV.pinf
    exact EV.meanL_all_pinf _ (hzne _)
      (EV.zipWith_maskedRow _ _ EV.abs_sub_masked row brow hb)
  · rw [if_pos rfl]
    show EV.meanL _ = EV.nan
    exact EV.meanL_all_nan _ (hzne _)
      (EV.zipWith_maskedRow _ _ EV.canberra_elem_masked row brow hb)
  · rw [if_neg (by decide)]
    show EV.sqrt (EV.sumL _) = EV.pinf
    rw [EV.sumL_all_pinf _ (hzne _)
      (EV.zipWith_maskedRow _ _ EV.sq_abs_sub_masked row brow hb)]
    rfl
  · rw [if_neg (by decide)]
    show EV.sqrt (EV.sumL _) = EV.pinf
    rw [EV.sumL_all_pinf _ (hzne _)
      (EV.zipWith_maskedRow _ _ EV.sq_sub_masked row brow hb)]
    rfl
  · rw [if_neg (by decide)]
    show EV.maxL _ = EV.pinf
    exact EV.maxL_all_pinf _ (hzne _)
      (EV.zipWith_maskedRow _ _ EV.abs_sub_masked row brow hb)
  · rw [if_neg (by decide)]
    show EV.mqaeL _ = EV.pinf
    exact EV.mqaeL_all_pinf _ (hzne _)
      (EV.zipWith_maskedRow _ _ EV.abs_sub_masked row brow hb)
  · rw [if_neg (by decide)]
    show EV.meanL _ = EV.pinf
    exact EV.meanL_all_pinf _ (hzne _)
      (EV.zipWith_maskedRow _ _ EV.sq_sub_masked row brow hb)

/-- two finite rows always produce a finite score, for every metric. -/
theorem indepCellScore_finite (metric : String) (arow brow : List EV) (F : ℕ)
    (hm : metric ∈ metricNames)
    (ha : arow.length = F) (hbrow : brow.length = F) (hF : 1 ≤ F)
    (han : ∀ x ∈ arow, ∃ q : ℚ, x = EV.num q)
    (hbn : ∀ y ∈ brow, ∃ q : ℚ, y = EV.num q) :
    ∃ q : ℚ, indepCellScore metric arow brow = EV.num q := by
  have hzne : ∀ f : EV → EV → EV, (List.zipWith f arow brow) ≠ [] := by
    intro f h
    have h2 : (List.zipWith f arow brow).length = F := by
      rw [List.length_zipWith, ha, hbrow, min_self]
    rw [h] at h2
    simp only [List.length_nil] at h2
    omega
  simp only [metricNames, List.mem_cons, List.not_mem_nil, or_false] at hm
  rcases hm with rfl | rfl | rfl | rfl | rfl | rfl | rfl
  · show ∃ q : ℚ, EV.meanL _ = EV.num q
    exact EV.meanL_all_num _ (hzne _)
      (EV.zipWith_bothNum _ (fun x y => ⟨|x - y|, EV.abs_sub_num x y⟩)
        arow brow han hbn)
  · show ∃ q : ℚ, EV.meanL _ = EV.num q
    exact EV.meanL_all_num _ (hzne _)
      (EV.zipWith_bothNum _ (fun x y => ⟨_, EV.canberra_elem_num x y⟩)
        arow brow han hbn)
  · obtain ⟨s, hs, hs0⟩ := EV.sumL_all_num_nonneg _
      (EV.zipWith_bothNum_nonneg (fun x y => EV.sq (EV.abs (EV.sub x y)))
        (fun x y => ⟨|x - y| * |x - y|, EV.sq_abs_sub_num x y, by positivity⟩)
        arow brow han hbn)
    exact ⟨Rat.sqrt s, by
      show EV.sqrt (EV.sumL _) = _
      rw [hs]
      simp [EV.sqrt, not_lt.mpr hs0]⟩
  · obtain ⟨s, hs, hs0⟩ := EV.sumL_all_num_nonneg _
      (EV.zipWith_bothNum_nonneg (fun x y => EV.sq (EV.sub x y))
        (fun x y => ⟨(x - y) * (x - y), EV.sq_sub_num x y, mul_self_nonneg _⟩)
        arow brow han hbn)
    exact ⟨Rat.sqrt s, by
      show EV.sqrt (EV.sumL _) = _
      rw [hs]
      simp [EV.sqrt, not_lt.mpr hs0]⟩
  · show ∃ q : ℚ, EV.maxL _ = EV.num q
    exact EV.maxL_all_num _ (hzne _)
      (EV.zipWith_bothNum _ (fun x y => ⟨|x - y|, EV.abs_sub_num x y⟩)
        arow brow han hbn)
  · show ∃ q : ℚ, EV.mqaeL _ = EV.num q
    exact EV.mqaeL_all_num _ (hzne _)
      (EV.zipWith_bothNum _ (fun x y => ⟨|x - y|, EV.abs_sub_num x y⟩)
        arow brow han hbn)
  · show ∃ q : ℚ, EV.meanL _ = EV.num q
    exact EV.meanL_all_num _ (hzne _)
      (EV.zipWith_bothNum _
        (fun x y => ⟨(x - y) * (x - y), EV.sq_sub_num x y⟩)
        arow brow han hbn)

/-- every index below `n` occurs in an index list that has length `n`, no
duplicates and all entries below `n` (the shape of every valid NumPy
selector output). -/
theorem index_list_complete (p : List ℕ) (n : ℕ) (hl : p.length = n)
    (hnd : p.Nodup) (hb : ∀ i ∈ p, i < n) : ∀ i < n, i ∈ p := by
  have hsub : p.toFinset ⊆ Finset.range n := by
    intro i hi
    rw [List.mem_toFinset] at hi
    exact Finset.mem_range.mpr (hb i hi)
  have hcard : (Finset.range n).card ≤ p.toFinset.card := by
    rw [Finset.card_range, List.toFinset_card_of_nodup hnd, hl]
  have heq : p.toFinset = Finset.range n :=
    Finset.eq_of_subset_of_card_le hsub hcard
  intro i hi
  have : i ∈ p.toFinset := heq ▸ Finset.mem_range.mpr hi
  exact List.mem_toFinset.mp this

/-- length of the masked history frame. -/
theorem applyMask_length (hist : List (List EV)) (mask : List Bool)
    (h : mask.length = hist.length) :
    (applyMask hist mask).length = hist.length := by
  rw [applyMask, List.length_zipWith, h, min_self]

set_option maxHeartbeats 800000 in
/-- C6 (amended): masking history rows via `nan_array` gives them the score
`+inf` against every future row for every supported metric except `canberra`,
where `inf / inf` makes the score NaN; in either case the masked scores sort
after every finite score (NumPy places NaN last), so whenever
`k ≤ #unmasked rows`, no masked row appears among the `k` selected indices of
any valid per-column top-k selection (`full_sort` either way). -/
theorem c6_mask_never_selected (metric : String) (hist : List (List EV))
    (mask : List Bool) (fut : List (List EV)) (F k j : ℕ) (p : List ℕ)
    (hm : metric ∈ metricNames)
    (hmask : mask.length = hist.length)
    (hF : 1 ≤ F)
    (hrect : ∀ r ∈ hist, r.length = F)
    (hhn : ∀ r ∈ hist, ∀ x ∈ r, ∃ q : ℚ, x = EV.num q)
    (hfut : (fut.getD j []).length = F)
    (hfn : ∀ y ∈ fut.getD j [], ∃ q : ℚ, y = EV.num q)
    (hp : frontKSmallest
      (indepScoresCol metric (applyMask hist mask) fut j) k p)
    (hk : k ≤ ((List.range hist.length).filter
      (fun i => !(mask.getD i false))).length) :
    (∀ i < k, mask.getD (p.getD i 0) false = false) ∧
    (∀ i < hist.length, mask.getD i false = true →
      (indepScoresCol metric (applyMask hist mask) fut j).getD i EV.nan
        = (if metric = "canberra" then EV.nan else EV.pinf)) := by
  obtain ⟨hplen, hnd, hbound, hord⟩ := hp
  set n := hist.length with hn
  set s := indepScoresCol metric (applyMask hist mask) fut j with hs
  have hslen : s.length = n := by
    rw [hs, indepScoresCol, List.length_map, applyMask_length hist mask hmask]
  have hplen' : p.length = n := by rw [hplen, hslen]
  have hkn : k ≤ n := le_trans hk (by
    calc ((List.range n).filter (fun i => !(mask.getD i false))).length
        ≤ (List.range n).length := List.length_filter_le _ _
      _ = n := List.length_range n)
  -- score of any in-range history row
  have hcell : ∀ i < n, s.getD i EV.nan
      = indepCellScore metric ((applyMask hist mask).getD i []) (fut.getD j []) := by
    intro i hi
    rw [hs, indepScoresCol]
    exact getD_map_lt _ _ _ _ [] (by rw [applyMask_length hist mask hmask]; exact hi)
  have hrowlen : ∀ i < n, (hist.getD i []).length = F := by
    intro i hi
    have : hist.getD i [] ∈ hist := by
      rw [List.getD_eq_getElem?_getD, List.getElem?_eq_getElem hi]
      exact List.getElem_mem _
    exact hrect _ this
  have hrownum : ∀ i < n, ∀ x ∈ hist.getD i [], ∃ q : ℚ, x = EV.num q := by
    intro i hi
    have : hist.getD i [] ∈ hist := by
      rw [List.getD_eq_getElem?_getD, List.getElem?_eq_getElem hi]
      exact List.getElem_mem _
    exact hhn _ this
  have hmaskedScore : ∀ i < n, mask.getD i false = true →
      s.getD i EV.nan = (if metric = "canberra" then EV.nan else EV.pinf) := by
    intro i hi hmi
    rw [hcell i hi, applyMask_getD hist mask i hmask hi, if_pos hmi]
    exact indepCellScore_masked metric _ _ F hm (hrowlen i hi) hfut hF hfn
  have hfiniteScore : ∀ i < n, mask.getD i false = false →
      ∃ q : ℚ, s.getD i EV.nan = EV.num q := by
    intro i hi hmi
    rw [hcell i hi, applyMask_getD hist mask i hmask hi, hmi, if_neg (by simp)]
    exact indepCellScore_finite metric _ _ F hm (hrowlen i hi) hfut hF
      (hrownum i hi) hfn
  refine ⟨?_, fun i hi hmi => hmaskedScore i hi hmi⟩
  intro i0 hi0k
  by_contra hcon
  have hmp : mask.getD (p.getD i0 0) false = true := by
    cases h : mask.getD (p.getD i0 0) false
    · exact absurd h hcon
    · rfl
  have hi0lt : i0 < p.length := by omega
  have hpi0mem : p.getD i0 0 ∈ p := by
    rw [List.getD_eq_getElem?_getD, List.getElem?_eq_getElem hi0lt]
    exact List.getElem_mem _
  have hpi0 : p.getD i0 0 < n := by
    have := hbound _ hpi0mem
    omega
  -- the score at the masked selected index
  have hw : s.getD (p.getD i0 0) EV.nan
      = (if metric = "canberra" then EV.nan else EV.pinf) :=
    hmaskedScore _ hpi0 hmp
  -- every tail position is masked
  have htail : ∀ t, k ≤ t → t < p.length →
      p.getD t 0 < n ∧ mask.getD (p.getD t 0) false = true := by
    intro t htk htl
    have hptmem : p.getD t 0 ∈ p := by
      rw [List.getD_eq_getElem?_getD, List.getElem?_eq_getElem htl]
      exact List.getElem_mem _
    have hptlt : p.getD t 0 < n := by
      have := hbound _ hptmem
      omega
    refine ⟨hptlt, ?_⟩
    have hle := hord i0 hi0k t htl htk
    rw [hw] at hle
    have hbig : s.getD (p.getD t 0) EV.nan = EV.pinf
        ∨ s.getD (p.getD t 0) EV.nan = EV.nan := by
      by_cases hc : metric = "canberra"
      · rw [if_pos hc] at hle
        exact Or.inr (EV.le_nan_elim _ hle)
      · rw [if_neg hc] at hle
        exact EV.le_pinf_elim _ hle
    cases h : mask.getD (p.getD t 0) false
    · obtain ⟨q, hq⟩ := hfiniteScore _ hptlt h
      rw [hq] at hbig
      rcases hbig with h' | h' <;> exact absurd h' (by simp)
    · rfl
  -- counting: too many masked indices
  have hdropnd : (p.drop k).Nodup := hnd.sublist (List.drop_sublist k p)
  have hpi0eq : p.getD i0 0 = p[i0] := by
    rw [List.getD_eq_getElem?_getD, List.getElem?_eq_getElem hi0lt]
    rfl
  have hnotin : p.getD i0 0 ∉ p.drop k := by
    intro hin
    obtain ⟨t, ht, heq⟩ := List.mem_drop_iff_getElem.mp hin
    have : p[k + t] = p[i0] := by rw [heq, hpi0eq]
    have := (List.Nodup.getElem_inj_iff hnd).mp this
    omega
  have hLnd : ((p.drop k) ++ [p.getD i0 0]).Nodup := by
    refine List.Nodup.append hdropnd (List.nodup_singleton _) ?_
    intro a ha hb
    rw [List.mem_singleton] at hb
    exact hnotin (hb ▸ ha)
  have hLsub : ∀ x ∈ (p.drop k) ++ [p.getD i0 0],
      x ∈ (List.range n).filter (fun a => mask.getD a false) := by
    intro x hx
    rcases List.mem_append.mp hx with hx | hx
    · obtain ⟨t, ht, rfl⟩ := List.mem_drop_iff_getElem.mp hx
      have := htail (k + t) (by omega) (by omega)
      rw [List.getD_eq_getElem?_getD, List.getElem?_eq_getElem (by omega : k + t < p.length)] at this
      refine List.mem_filter.mpr ⟨List.mem_range.mpr ?_, ?_⟩
      · exact this.1
      · exact this.2
    · rw [List.mem_singleton] at hx
      subst hx
      exact List.mem_filter.mpr ⟨List.mem_range.mpr hpi0, hmp⟩
  have hcard : ((p.drop k) ++ [p.getD i0 0]).length
      ≤ ((List.range n).filter (fun a => mask.getD a false)).length := by
    calc ((p.drop k) ++ [p.getD i0 0]).length
        = ((p.drop k) ++ [p.getD i0 0]).toFinset.card :=
          (List.toFinset_card_of_nodup hLnd).symm
      _ ≤ ((List.range n).filter (fun a => mask.getD a false)).toFinset.card := by
          apply Finset.card_le_card
          intro a ha
          rw [List.mem_toFinset] at ha
          rw [List.mem_toFinset]
          exact hLsub a ha
      _ ≤ _ := List.toFinset_card_le _
  have hLlen : ((p.drop k) ++ [p.getD i0 0]).length = (n - k) + 1 := by
    rw [List.length_append, List.length_drop, hplen']
    rfl
  have hsum := List.length_eq_length_filter_add
    (l := List.range n) (fun i => mask.getD i false)
  rw [List.length_range] at hsum
  have hkk : ((List.range n).filter (fun i => !(mask.getD i false))).length
      = ((List.range n).filter (fun i => (!(fun a => mask.getD a false) ·) i)).length := rfl
  omega

/-- C6 counterexample: under the `canberra` metric a masked history row does
not receive the score `+inf`: each feature contributes
`|inf - b| / (|inf| + |b|) = inf / inf = NaN`, so the claim's "every supported
distance metric" fails.  Concretely, one masked history row against one finite
future row scores `[[NaN]]`. -/
theorem c6_canberra_mask_counterexample :
    seasonalIndependentScores "canberra"
        (applyMask [[EV.num 5]] [true]) [[EV.num 1]] = .ok [[EV.nan]]
    ∧ EV.nan ≠ EV.pinf := by
  exact ⟨by decide, by decide⟩

/-- witness for C6 (amended): two one-feature history rows, the first masked,
`metric = "mae"`, one future row, `k = 1`, selection `p = [1, 0]`. -/
theorem c6_mask_never_selected_witness :
    frontKSmallest (indepScoresCol "mae"
        (applyMask [[EV.num 5], [EV.num 1]] [true, false]) [[EV.num 1]] 0)
      1 [1, 0] ∧
    (∀ i < 1, ([true, false] : List Bool).getD (([1, 0] : List ℕ).getD i 0) false
      = false) ∧
    (∀ i < 2, ([true, false] : List Bool).getD i false = true →
      (indepScoresCol "mae"
          (applyMask [[EV.num 5], [EV.num 1]] [true, false]) [[EV.num 1]] 0).getD
        i EV.nan = EV.pinf) := by
  have h := c6_mask_never_selected "mae" [[EV.num 5], [EV.num 1]] [true, false]
    [[EV.num 1]] 1 1 0 [1, 0]
    (by decide) (by decide) (by decide)
    (by intro r hr; fin_cases hr <;> rfl)
    (by intro r hr x hx; fin_cases hr <;> fin_cases hx <;> exact ⟨_, rfl⟩)
    (by decide)
    (by intro y hy; fin_cases hy; exact ⟨_, rfl⟩)
    (by decide) (by decide)
  refine ⟨by decide, h.1, fun i hi hm => ?_⟩
  have := h.2 i hi hm
  simpa using this

/-- the code's branchy reduction coincides with the floor-trimming formula on
every input. -/
theorem mqaeQ_eq_specMqaeFloor (l : List ℚ) : mqaeQ l = specMqaeFloor l := by
  unfold mqaeQ specMqaeFloor
  by_cases hlen : l.length ≤ 1
  · rw [if_pos hlen]
    match l, hlen with
    | [], _ => rfl
    | [x], _ =>
      have h1 : (17 * [x].length / 20 ⊔ 1) = 1 := by norm_num
      have h2 : List.insertionSort (· ≤ ·) [x] = [x] := rfl
      rw [h1, h2]
      rfl
  · rw [if_neg hlen]

/-- C4 counterexample: with `F = 2` features, the code keeps
`int(2 * 0.85) = 1` value, not `⌈2 * 0.85⌉ = 2`: history row `[0, 0]` against
future row `[0, 2]` has absolute differences `[0, 2]`; the engine returns
`0` (the single smallest), while the claim's ceil formula gives `1`. -/
theorem c4_mqae_ceil_counterexample :
    seasonalIndependentScores "mqae" [[EV.num 0, EV.num 0]]
        [[EV.num 0, EV.num 2]] = .ok [[EV.num 0]]
    ∧ specMqaeCeil [|(0 : ℚ) - 0|, |(0 : ℚ) - 2|] = 1
    ∧ (0 : ℚ) ≠ 1 := by
  exact ⟨by decide, by decide, by decide⟩

/-- C4 (amended): for every pair of broadcast-aligned finite rows with
feature-axis length `F ≥ 1`, the `mqae` score equals the mean of the lowest
`max(⌊0.85 · F⌋, 1)` absolute elementwise differences along the feature
axis. -/
theorem c4_mqae_floor_trim (a b : List ℚ) (F : ℕ) (hF : 1 ≤ F)
    (ha : a.length = F) (hb : b.length = F) :
    indepCellScore "mqae" (a.map EV.num) (b.map EV.num)
      = EV.num (specMqaeFloor (List.zipWith (fun x y => |x - y|) a b)) := by
  have hd : (List.zipWith (fun x y : ℚ => |x - y|) a b).length = F := by
    rw [List.length_zipWith, ha, hb, min_self]
  have hdne : List.zipWith (fun x y : ℚ => |x - y|) a b ≠ [] := by
    intro h0
    rw [h0] at hd
    simp only [List.length_nil] at hd
    omega
  show EV.mqaeL _ = _
  rw [EV.zipWith_absSub_map_num, EV.mqaeL_map_num _ hdne,
    mqaeQ_eq_specMqaeFloor]

/-- witness for C4 (amended): the theorem applied at the counterexample's
concrete rows, hypotheses discharged by evaluation. -/
theorem c4_mqae_floor_trim_witness :
    (1 ≤ 2 ∧ ([(0 : ℚ), 0]).length = 2 ∧ ([(0 : ℚ), 2]).length = 2) ∧
    indepCellScore "mqae" ([(0 : ℚ), 0].map EV.num) ([(0 : ℚ), 2].map EV.num)
      = EV.num (specMqaeFloor
          (List.zipWith (fun x y => |x - y|) [(0 : ℚ), 0] [(0 : ℚ), 2]))
    ∧ specMqaeFloor
        (List.zipWith (fun x y => |x - y|) [(0 : ℚ), 0] [(0 : ℚ), 2]) = 0 := by
  exact ⟨⟨by decide, by decide, by decide⟩,
    c4_mqae_floor_trim [0, 0] [0, 2] 2 (by decide) (by decide) (by decide),
    by decide⟩

/-! ## Claim C1: dispatch on unknown scheme names -/

theorem createDatepartComponents_ok (m : String)
    (hm : m ∈ datepartComponents) (ts : List Timestamp) :
    ∃ v, createDatepartComponents m ts = .ok v := by
  fin_cases hm <;> exact ⟨_, rfl⟩

theorem isOk_map {ε α β : Type} (f : α → β) (e : Except ε α) :
    (e.map f).isOk = e.isOk := by
  cases e <;> rfl

/-- the string path of `date_part` never raises: every branch of the dispatch
produces a frame. -/
theorem datePartCore_isOk (m : String) (ts : List Timestamp) :
    (datePartCore m ts).isOk = true := by
  unfold datePartCore
  by_cases hmem : m ∈ datepartComponents
  · rw [if_pos hmem]
    obtain ⟨v, hv⟩ := createDatepartComponents_ok m hmem ts
    rw [hv]
    rfl
  · rw [if_neg hmem]
    repeat' split
    all_goals rfl

/-- C1 counterexample: `date_part` with the unknown scheme name
`"mystery_scheme"` does not raise — it silently produces the `simple`
feature matrix; and `create_seasonality_feature` *returns* (does not raise)
its `ValueError` for the same name. -/
theorem c1_unknown_scheme_counterexample :
    datePart "mystery_scheme" [c1Ts] = .ok (.plain [[2024, 1, 15, 0]])
    ∧ createSeasonalityFeatureStr "mystery_scheme" [c1Ts]
        = .errorValue "Seasonality `mystery_scheme` not recognized. Must be int, float, or a select type string such as 'dayofweek'" := by
  exact ⟨by decide, by decide⟩

/-- C1 (amended): the string path of `date_part` never raises for any method
name; a name matching none of the dispatch conditions silently falls through
to the `simple` frame; the only "configuration error" for an unknown scheme
name lives in `create_seasonality_feature`, which *returns* the `ValueError`
as a value rather than raising it. -/
theorem c1_unknown_scheme_fallback (m : String) (ts : List Timestamp)
    (h0 : strContains m "_poly" = false)
    (h1 : m ∉ datepartComponents)
    (h2 : m ≠ "recurring")
    (h3 : m ≠ "simple_2") (h4 : m ≠ "simple_2_poly")
    (h5 : m ≠ "simple_3") (h6 : m ≠ "lunar_phase")
    (h7 : strContains m "simple_binarized" = false)
    (h8 : strContains "expanded_binarized" m = false)
    (h9 : m ≠ "common_fourier") (h10 : m ≠ "common_fourier_rw")
    (h11 : m ≠ "expanded")
    (h12 : m ∉ datePartMethods) :
    (∀ (mm : String) (tss : List Timestamp), (datePart mm tss).isOk = true)
    ∧ datePart m ts = .ok (.plain (ts.map simpleRow))
    ∧ createSeasonalityFeatureStr m ts
        = .errorValue ("Seasonality `" ++ m
          ++ "` not recognized. Must be int, float, or a select type string such as 'dayofweek'") := by
  refine ⟨?_, ?_, ?_⟩
  · intro mm tss
    unfold datePart
    by_cases hp : strContains mm "_poly" = true
    · rw [if_pos hp, isOk_map]
      exact datePartCore_isOk _ _
    · rw [if_neg hp]
      exact datePartCore_isOk _ _
  · unfold datePart
    rw [if_neg (by simp [h0])]
    unfold datePartCore
    rw [if_neg h1, if_neg h2, if_neg (not_or.mpr ⟨h3, h4⟩),
      if_neg (not_or.mpr ⟨h5, h6⟩), if_neg (by simp [h7]),
      if_neg (by simp [h8]), if_neg (not_or.mpr ⟨h9, h10⟩)]
    simp only [if_neg h11, List.append_nil]
  · unfold createSeasonalityFeatureStr
    rw [if_neg h1, if_neg h12]

/-- witness for C1 (amended): the theorem applied at the concrete unknown
name of the counterexample, hypotheses discharged by evaluation. -/
theorem c1_unknown_scheme_fallback_witness :
    (strContains "mystery_scheme" "_poly" = false
      ∧ "mystery_scheme" ∉ datepartComponents
      ∧ "mystery_scheme" ∉ datePartMethods) ∧
    (datePart "mystery_scheme" [c1Ts]).isOk = true ∧
    datePart "mystery_scheme" [c1Ts] = .ok (.plain ([c1Ts].map simpleRow)) := by
  have h := c1_unknown_scheme_fallback "mystery_scheme" [c1Ts]
    (by decide) (by decide) (by decide) (by decide) (by decide) (by decide)
    (by decide) (by decide) (by decide) (by decide) (by decide) (by decide)
    (by decide)
  exact ⟨⟨by decide, by decide, by decide⟩, h.1 "mystery_scheme" [c1Ts], h.2.1⟩

/-! ## Claim C9: the "hour" one-hot component -/

theorem oneHot_length (cats : List ℕ) (v : ℕ) :
    (oneHot cats v).length = cats.length := List.length_map _ _

theorem oneHot_sum (cats : List ℕ) (v : ℕ) (h : cats.Nodup) :
    (oneHot cats v).sum = if v ∈ cats then 1 else 0 := by
  induction cats with
  | nil => simp [oneHot]
  | cons c cs ih =>
    obtain ⟨hc, hcs⟩ := List.nodup_cons.mp h
    simp only [oneHot, List.map_cons, List.sum_cons] at *
    by_cases hvc : v = c
    · subst hvc
      rw [if_pos rfl, if_pos (by simp)]
      rw [ih hcs, if_neg hc]
      ring
    · rw [if_neg hvc, ih hcs]
      by_cases hvcs : v ∈ cs
      · rw [if_pos hvcs, if_pos (by simp [hvcs])]
        ring
      · rw [if_neg hvcs, if_neg (by simp [hvc, hvcs])]
        ring

theorem hourCats_mem_iff (v : ℕ) : v ∈ hourCats ↔ 1 ≤ v ∧ v ≤ 24 := by
  simp only [hourCats, List.mem_map, List.mem_range]
  constructor
  · rintro ⟨a, ha, rfl⟩
    omega
  · rintro ⟨h1, h2⟩
    exact ⟨v - 1, by omega, by omega⟩

/-- C9: the `"hour"` scheme produces exactly 24 one-hot columns over the
fixed category domain 1..24; each row sums to 1 exactly when the hour lies in
1..24, and a midnight timestamp (hour 0 — pandas hours range over 0..23)
encodes as the all-zero row. -/
theorem c9_hour_onehot (ts : List Timestamp) (i : ℕ) (hi : i < ts.length) :
    ∃ M, createDatepartComponents "hour" ts = .ok M
      ∧ M.length = ts.length
      ∧ (∀ row ∈ M, row.length = 24)
      ∧ (M.getD i []).sum
          = (if 1 ≤ (ts.getD i defaultTs).hour ∧ (ts.getD i defaultTs).hour ≤ 24
             then 1 else 0)
      ∧ ((ts.getD i defaultTs).hour = 0 → M.getD i [] = List.replicate 24 0) := by
  refine ⟨ts.map fun (t : Timestamp) => oneHot hourCats t.hour, rfl,
    List.length_map _ _, ?_, ?_, ?_⟩
  · intro row hrow
    obtain ⟨t, _, rfl⟩ := List.mem_map.mp hrow
    rw [oneHot_length]
    rfl
  · rw [getD_map_lt _ ts i [] defaultTs hi, oneHot_sum _ _ (by decide)]
    by_cases hmem : (ts.getD i defaultTs).hour ∈ hourCats
    · rw [if_pos hmem, if_pos ((hourCats_mem_iff _).mp hmem)]
    · rw [if_neg hmem, if_neg (fun hc => hmem ((hourCats_mem_iff _).mpr hc))]
  · intro h0
    rw [getD_map_lt _ ts i [] defaultTs hi, h0]
    decide

/-- witness for C9: a single midnight timestamp encodes as 24 zero columns. -/
theorem c9_hour_onehot_witness :
    0 < 1 ∧
    ∃ M, createDatepartComponents "hour" [c9Ts] = .ok M
      ∧ M.length = 1 ∧ (∀ row ∈ M, row.length = 24)
      ∧ (M.getD 0 []).sum = 0
      ∧ M.getD 0 [] = List.replicate 24 0 := by
  obtain ⟨M, h1, h2, h3, h4, h5⟩ := c9_hour_onehot [c9Ts] 0 (by decide)
  have hhour : ([c9Ts].getD 0 defaultTs).hour = 0 := rfl
  refine ⟨by decide, M, h1, by simpa using h2, h3, ?_, h5 hhour⟩
  rw [h4, hhour]
  decide

/-! ## Claim C10: numeric Fourier scheme on a same-day history -/

theorem foldl_min_of_le : ∀ (l : List ℤ) (a : ℤ),
    (∀ y ∈ l, a ≤ y) → l.foldl min a = a
  | [], _, _ => rfl
  | y :: t, a, h => by
    rw [List.foldl_cons, min_eq_left (h y (by simp))]
    exact foldl_min_of_le t a (fun z hz => h z (by simp [hz]))

theorem foldl_max_last : ∀ (l : List ℤ) (a : ℤ),
    (a :: l).Pairwise (· ≤ ·) → l.foldl max a = ((a :: l).getLast?).getD 0
  | [], a, _ => by simp
  | y :: t, a, h => by
    obtain ⟨hhead, htail⟩ := List.pairwise_cons.mp h
    rw [List.foldl_cons, max_eq_right (hhead y (by simp)),
      foldl_max_last t y htail, List.getLast?_cons_cons]

theorem dtMinSec_sorted (ts : List Timestamp) (hne : ts ≠ [])
    (h : (epochSecs ts).Pairwise (· ≤ ·)) :
    dtMinSec ts = (epochSecs ts).headD 0 := by
  match ts, hne with
  | t :: r, _ =>
    show (r.map (fun t => t.epochSec)).foldl min t.epochSec = _
    rw [epochSecs, List.map_cons] at h
    rw [foldl_min_of_le _ _ (List.pairwise_cons.mp h).1]
    rfl

theorem dtMaxSec_sorted (ts : List Timestamp) (hne : ts ≠ [])
    (h : (epochSecs ts).Pairwise (· ≤ ·)) :
    dtMaxSec ts = (epochSecs ts).getLast?.getD 0 := by
  match ts, hne with
  | t :: r, _ =>
    show (r.map (fun t => t.epochSec)).foldl max t.epochSec = _
    rw [epochSecs, List.map_cons] at h ⊢
    exact foldl_max_last _ _ h

theorem sorted_head_le_last : ∀ (l : List ℤ), l ≠ [] →
    l.Pairwise (· ≤ ·) → l.headD 0 ≤ l.getLast?.getD 0
  | [], h, _ => absurd rfl h
  | [x], _, _ => by simp
  | x :: y :: t, _, h => by
    obtain ⟨hhead, htail⟩ := List.pairwise_cons.mp h
    have h2 := sorted_head_le_last (y :: t) (by simp) htail
    rw [List.getLast?_cons_cons]
    exact le_trans (hhead y (by simp)) (by simpa using h2)

/-- C10: when the first and last timestamps fall on the same (epoch) day, the
numeric Fourier path of `date_part` raises `ZeroDivisionError` — the history
span in days is 0 and `fourier_df` normalizes the period by it, with no
single-row special case; by contrast `common_fourier`'s `seasonal_ratio`
special-cases a length-≤-1 index to ratio 1 instead of dividing. -/
theorem c10_fourier_sameday_divzero (ts : List Timestamp) (s : ℚ)
    (hne : ts ≠ [])
    (hsorted : (epochSecs ts).Pairwise (· ≤ ·))
    (hday : Int.fdiv ((epochSecs ts).headD 0) 86400
          = Int.fdiv ((epochSecs ts).getLast?.getD 0) 86400) :
    datePartNumeric ts s = .error "ZeroDivisionError: division by zero"
    ∧ (∀ t : Timestamp, seasonalRatioDays [t] = 1) := by
  have hmin := dtMinSec_sorted ts hne hsorted
  have hmax := dtMaxSec_sorted ts hne hsorted
  have hmapne : epochSecs ts ≠ [] := by
    intro h
    exact hne (List.map_eq_nil_iff.mp h)
  have hab := sorted_head_le_last _ hmapne hsorted
  have e1 : ∀ x : ℤ, x.fdiv 86400 = x / 86400 :=
    fun x => Int.fdiv_eq_ediv x (by norm_num)
  have hzero : (dtMaxSec ts - dtMinSec ts).fdiv 86400 = 0 := by
    rw [hmin, hmax, e1]
    rw [e1, e1] at hday
    omega
  constructor
  · unfold datePartNumeric fourierDf
    simp only [hzero, if_pos]
  · intro t
    rfl

/-- witness for C10: two timestamps one hour apart on the same day make the
numeric Fourier scheme raise. -/
theorem c10_fourier_sameday_divzero_witness :
    (([c10TsA, c10TsB] : List Timestamp) ≠ []
      ∧ ((epochSecs [c10TsA, c10TsB]).Pairwise (· ≤ ·))
      ∧ Int.fdiv ((epochSecs [c10TsA, c10TsB]).headD 0) 86400
          = Int.fdiv ((epochSecs [c10TsA, c10TsB]).getLast?.getD 0) 86400) ∧
    datePartNumeric [c10TsA, c10TsB] 7
      = .error "ZeroDivisionError: division by zero"
    ∧ seasonalRatioDays [c10TsA] = 1 := by
  have h := c10_fourier_sameday_divzero [c10TsA, c10TsB] 7
    (by decide) (by decide) (by decide)
  exact ⟨⟨by decide, by decide, by decide⟩, h.1, h.2 c10TsA⟩

end AutoTSSeasonal

